import Mathlib

/-!
Verification of `dufs_downloader.py`, a command-line client for the dufs
directory-listing file server.

The Python source is shallowly embedded: Python strings become `String`
(manipulated through their `data` char lists), fallible operations return
`Except PyExc`, network responses and the local filesystem are explicit
parameters, and the remote directory tree is a finite inductive tree.
Every definition mirrors the corresponding lines of `dufs_downloader.py`;
deviations and modelling restrictions are noted in the doc comments.
-/

set_option autoImplicit false

namespace Dufs

/-! ### Python string primitives -/

/-- Whitespace characters recognised by Python `str.strip()` (ASCII subset;
the unicode whitespace classes are irrelevant to the inputs at hand). -/
def pyIsSpace (c : Char) : Bool :=
  c = ' ' || c = '\t' || c = '\n' || c = '\r' || c = '\x0b' || c = '\x0c'

/-- Python `s.lstrip(c)` for a single strip character. -/
def pyLstripChar (s : String) (c : Char) : String :=
  ⟨s.data.dropWhile (· = c)⟩

/-- Python `s.rstrip(c)` for a single strip character. -/
def pyRstripChar (s : String) (c : Char) : String :=
  ⟨(s.data.reverse.dropWhile (· = c)).reverse⟩

/-- Python `s.strip(c)` for a single strip character. -/
def pyStripChar (s : String) (c : Char) : String :=
  pyRstripChar (pyLstripChar s c) c

/-- Python `s.strip()` with no argument: whitespace trimmed from both ends. -/
def pyStripWs (s : String) : String :=
  ⟨((s.data.dropWhile pyIsSpace).reverse.dropWhile pyIsSpace).reverse⟩

/-- Python `s.startswith(p)`. -/
def pyStartswith (s p : String) : Bool :=
  p.data.isPrefixOf s.data

/-- Python `s.endswith(p)`. -/
def pyEndswith (s p : String) : Bool :=
  p.data.isSuffixOf s.data

/-- Python `s[n:]`. -/
def pyDrop (s : String) (n : Nat) : String :=
  ⟨s.data.drop n⟩

/-- Python `s.lower()` (ASCII). -/
def pyLower (s : String) : String :=
  ⟨s.data.map Char.toLower⟩

/-- Numeric value of a list of decimal digit characters (most significant first). -/
def digitsVal (l : List Char) : Nat :=
  l.foldl (fun a c => a * 10 + (c.toNat - 48)) 0

/-- Python `s.isdigit()` (ASCII digits). -/
def pyIsdigit (s : String) : Bool :=
  !s.data.isEmpty && s.data.all Char.isDigit

/-- Digits with optional single underscores strictly between digits: the body
accepted by Python `int(...)` after sign and whitespace handling. -/
def validIntBody (l : List Char) : Bool :=
  !l.isEmpty
    && l.all (fun c => c.isDigit || c = '_')
    && l.head? ≠ some '_'
    && l.getLast? ≠ some '_'
    && (l.zip l.tail).all (fun p => !(p.1 = '_' && p.2 = '_'))

/-- Python `int(s)` on a string: `none` models a raised `ValueError`. -/
def pyIntParse (s : String) : Option Int :=
  match (pyStripWs s).data with
  | '+' :: rest =>
      if validIntBody rest then some (digitsVal (rest.filter Char.isDigit)) else none
  | '-' :: rest =>
      if validIntBody rest then some (-(digitsVal (rest.filter Char.isDigit) : Int)) else none
  | rest =>
      if validIntBody rest then some (digitsVal (rest.filter Char.isDigit)) else none

/-! ### normalize_base_url (dufs_downloader.py lines 19-24) -/

/-- Lines 19-24: `url.strip().rstrip("/")`, then prepend `http://` unless the
string already starts with `http://` or `https://`. -/
def normalize_base_url (url : String) : String :=
  let u := pyRstripChar (pyStripWs url) '/'
  if pyStartswith u "http://" || pyStartswith u "https://" then u
  else "http://" ++ u

/-! ### get_remote_size (dufs_downloader.py lines 78-87) -/

/-- Outcome of the `HEAD` request issued by `get_remote_size`: either the
request raises (network error, timeout, HTTP error), or it yields a response
whose `Content-Length` header may be absent. -/
inductive HeadOutcome where
  | err
  | ok (contentLength : Option String)

/-- Lines 78-87: on a successful HEAD response, `int(cl)` if the header is
present else `None`; every exception inside the `try` (including the
`ValueError` from `int` on a malformed header) is caught and yields `None`. -/
def get_remote_size (o : HeadOutcome) : Option Int :=
  match o with
  | .err => none
  | .ok none => none
  | .ok (some cl) => pyIntParse cl

/-! ### Split and join on a separator character -/

/-- Python `s.split(c)` at the char-list level: always returns a nonempty list,
`[[]]` on the empty string. -/
def splitChAux (c : Char) : List Char → List (List Char)
  | [] => [[]]
  | a :: rest =>
    if a = c then [] :: splitChAux c rest
    else
      match splitChAux c rest with
      | [] => [[a]]
      | g :: gs => (a :: g) :: gs

/-- Python `s.split(c)` for a one-character separator. -/
def pySplitChar (s : String) (c : Char) : List String :=
  (splitChAux c s.data).map (fun l => ⟨l⟩)

/-- Interleave a separator character between char lists (Python `c.join`). -/
def joinCh (c : Char) : List (List Char) → List Char
  | [] => []
  | [s] => s
  | s :: rest => s ++ c :: joinCh c rest

/-- Python `"/".join(l)`. -/
def joinSlash (l : List String) : String :=
  ⟨joinCh '/' (l.map String.data)⟩

/-- Python `pathlib`'s `a / b` for the relative path strings this client builds. -/
def pathJoin (a b : String) : String :=
  if b = "" then a else a ++ "/" ++ b

/-- Python `Path(p).name`: the last `/`-separated component. -/
def pathName (p : String) : String :=
  (pySplitChar p '/').getLastD ""

/-! ### Python exceptions and the JSON value model -/

/-- Exception classes that the embedded code can raise or catch. -/
inductive PyExc where
  | keyError
  | typeError
  | attributeError
  | urlError
  | jsonDecodeError
  deriving DecidableEq, Repr

/-- Values produced by `json.loads`: null, booleans, (integer) numbers,
strings, arrays and objects. -/
inductive JVal where
  | null
  | bool (b : Bool)
  | num (n : Int)
  | str (s : String)
  | arr (elems : List JVal)
  | obj (fields : List (String × JVal))

/-- Python truthiness of a decoded JSON value. -/
def pyFalsy : JVal → Bool
  | .null => true
  | .bool b => !b
  | .num n => n == 0
  | .str s => s == ""
  | .arr l => l.isEmpty
  | .obj l => l.isEmpty

/-- Python `str()` of a decoded JSON value. Lists and dicts render as a
bracketed body ending in `]` or `\x7d`; since the code only tests whether the
rendering ends in `"Dir"`, the body is abstracted. -/
def pyStrOf : JVal → String
  | .null => "None"
  | .bool true => "True"
  | .bool false => "False"
  | .num n => toString n
  | .str s => s
  | .arr _ => "[...]"
  | .obj _ => "\x7b...\x7d"

/-- Python `d.get(k, dflt)`: `AttributeError` when the receiver is not a dict. -/
def dictGet (v : JVal) (k : String) (dflt : JVal) : Except PyExc JVal :=
  match v with
  | .obj fs => .ok ((fs.lookup k).getD dflt)
  | _ => .error .attributeError

/-- Python `k in d` for a dict receiver (callers only reach this after a
successful `.get`, hence with a dict). -/
def hasKey (v : JVal) (k : String) : Bool :=
  match v with
  | .obj fs => (fs.lookup k).isSome
  | _ => false

/-- Python `d[k]` subscription. -/
def dictIndex (v : JVal) (k : String) : Except PyExc JVal :=
  match v with
  | .obj fs =>
      match fs.lookup k with
      | some x => .ok x
      | none => .error .keyError
  | _ => .error .typeError

/-- Python `for p in paths`: arrays iterate their elements, strings their
characters, dicts their keys; other values raise `TypeError`. -/
def pyIter : JVal → Except PyExc (List JVal)
  | .arr xs => .ok xs
  | .str s => .ok (s.data.map (fun c => .str ⟨[c]⟩))
  | .obj fs => .ok (fs.map (fun kv => .str kv.1))
  | _ => .error .typeError

/-! ### list_directory (dufs_downloader.py lines 27-75) -/

/-- Outcome of the `GET ?json` request in `fetch_json` (lines 27-35): a
network-level failure of `urlopen` (propagates as `URLError`/`HTTPError`), an
undecodable body (`json.loads` raises), or a decoded JSON value. -/
inductive JsonFetch where
  | netErr
  | badBody
  | ok (v : JVal)

/-- Lines 27-35: `fetch_json` as a map from the request outcome to the decoded
value or the exception it raises. -/
def fetch_json (r : JsonFetch) : Except PyExc JVal :=
  match r with
  | .netErr => .error .urlError
  | .badBody => .error .jsonDecodeError
  | .ok v => .ok v

/-- Lines 38-54: `fetch_simple` parses the `?simple` body: strip, split on
newlines, skip empty lines, a trailing `/` marks a directory and is stripped
from the name. The argument is the outcome of the `GET ?simple` request. -/
def fetch_simple (body : Except PyExc String) : Except PyExc (List (String × Bool)) :=
  match body with
  | .error e => .error e
  | .ok b =>
      let lines := pySplitChar (pyStripWs b) '\n'
      .ok (lines.filterMap (fun line =>
        if line = "" then none
        else some (pyRstripChar line '/', pyEndswith line "/")))

/-- Lines 63-73, one item of the `paths` list: `p.get("name", "")`, the
`href`-derived fallback name, and `str(p.get("path_type", "")).endswith("Dir")`. -/
def entry_of (p : JVal) : Except PyExc (JVal × Bool) := do
  let name0 ← dictGet p "name" (.str "")
  let name ←
    if pyFalsy name0 && hasKey p "href" then do
      let hrefv ← dictIndex p "href"
      match hrefv with
      | .str s =>
          let href := pyRstripChar s '/'
          pure (JVal.str (if href ≠ "" then (pySplitChar href '/').getLastD "" else ""))
      | _ => .error .attributeError
    else pure name0
  let pt ← dictGet p "path_type" (.str "")
  pure (name, pyEndswith (pyStrOf pt) "Dir")

/-- Lines 62-73, the body of the `try` block of `list_directory`: get `paths`
with default `[]`, iterate it, build `(name, is_dir)` pairs. -/
def parse_json_listing (data : JVal) : Except PyExc (List (JVal × Bool)) := do
  let paths ← dictGet data "paths" (.arr [])
  let items ← pyIter paths
  items.mapM entry_of

/-- Lines 57-75: `list_directory` tries the JSON listing and falls back to
`fetch_simple` exactly when the `try` body raises `KeyError` or `TypeError`;
every other exception propagates. Simple-format names are injected into `JVal`
to share the JSON branch's entry type. -/
def list_directory (jr : JsonFetch) (simpleBody : Except PyExc String) :
    Except PyExc (List (JVal × Bool)) :=
  match fetch_json jr >>= parse_json_listing with
  | .ok r => .ok r
  | .error e =>
      if e = .keyError ∨ e = .typeError then
        (fetch_simple simpleBody).map (List.map (fun nd => (JVal.str nd.1, nd.2)))
      else .error e

/-! ### download_file (dufs_downloader.py lines 90-119) -/

/-- Environment of one `download_file` call: the pre-existing local regular
file's bytes (if any), the HEAD probe outcome, which external tools
`shutil.which` finds, their exit codes, what they leave on disk, and the
body returned by the built-in `urlopen` transfer (or the exception it raises). -/
structure DlEnv where
  localFile : Option (List Nat)
  head : HeadOutcome
  hasWget : Bool
  wgetExit : Int
  wgetWrites : List Nat
  hasCurl : Bool
  curlExit : Int
  curlWrites : List Nat
  getBody : Except PyExc (List Nat)

/-- Result of `download_file`: the returned `(success, skipped)` pair, whether
a transfer was performed, and the local file contents afterwards. -/
structure DlResult where
  success : Bool
  skipped : Bool
  transferred : Bool
  localAfter : Option (List Nat)
  deriving DecidableEq

/-- Lines 102-119: the transfer part of `download_file` — wget if present,
else curl, else the built-in streamed copy whose exceptions propagate. -/
def transferStep (env : DlEnv) : Except PyExc DlResult :=
  if env.hasWget then
    .ok ⟨env.wgetExit == 0, false, true, some env.wgetWrites⟩
  else if env.hasCurl then
    .ok ⟨env.curlExit == 0, false, true, some env.curlWrites⟩
  else
    match env.getBody with
    | .ok bytes => .ok ⟨true, false, true, some bytes⟩
    | .error e => .error e

/-- Lines 90-119: `download_file`. If the local path is an existing regular
file and the size probe returns a non-negative size equal to its byte length,
return `(True, True)` without transferring; otherwise transfer. -/
def download_file (env : DlEnv) : Except PyExc DlResult :=
  match env.localFile with
  | some content =>
      match get_remote_size env.head with
      | some remote_size =>
          if 0 ≤ remote_size ∧ (content.length : Int) = remote_size then
            .ok ⟨true, true, false, some content⟩
          else transferStep env
      | none => transferStep env
  | none => transferStep env

/-! ### collect_files_recursive (dufs_downloader.py lines 122-134) -/

mutual
/-- Finite model of the remote directory tree served by the dufs server:
`list_directory` at a directory returns its entries in server order. -/
inductive FsTree where
  | file : FsTree
  | dir : FsEntries → FsTree

inductive FsEntries where
  | nil : FsEntries
  | cons : String → FsTree → FsEntries → FsEntries
end

/-- Entries of a tree as the `(name, is_dir)` pairs `list_directory` reports. -/
def FsEntries.listing : FsEntries → List (String × Bool)
  | .nil => []
  | .cons name sub rest =>
      (name, match sub with | .file => false | .dir _ => true) :: rest.listing

mutual
/-- Lines 122-134: depth-first collection of file paths below `remote_path`,
with the server's responses supplied by the tree. -/
def collect_files_recursive (remote_path : String) : FsTree → List String
  | .file => []
  | .dir es => collectEntries remote_path es

/-- Loop body of lines 126-133: skip `.`/`..`, join the child path with the
rstripped current path, recurse on directories, emit files. -/
def collectEntries (remote_path : String) : FsEntries → List String
  | .nil => []
  | .cons name sub rest =>
      (if name = "." ∨ name = ".." then []
       else
         let child := if remote_path ≠ "" then pyRstripChar remote_path '/' ++ "/" ++ name
                      else name
         match sub with
         | .file => [child]
         | .dir es => collectEntries child es) ++ collectEntries remote_path rest
end

mutual
/-- Specification-side collector, following the spec's words: a depth-first
pre-order traversal producing, for each file, its list of path segments;
directories are excluded and `.`/`..` entries are skipped. -/
def specFiles : FsTree → List (List String)
  | .file => []
  | .dir es => specFilesEntries es

/-- Entry list part of `specFiles`. -/
def specFilesEntries : FsEntries → List (List String)
  | .nil => []
  | .cons name sub rest =>
      (if name = "." ∨ name = ".." then []
       else
         match sub with
         | .file => [[name]]
         | .dir es => (specFilesEntries es).map (fun segs => name :: segs)) ++
      specFilesEntries rest
end

mutual
/-- Well-formedness of a served tree: every entry name is nonempty and free of
`/` (as real dufs listings guarantee). -/
def treeWF : FsTree → Bool
  | .file => true
  | .dir es => entriesWF es

/-- Entry list part of `treeWF`. -/
def entriesWF : FsEntries → Bool
  | .nil => true
  | .cons name sub rest =>
      !(name == "") && name.data.all (fun c => !(c == '/')) && treeWF sub && entriesWF rest
end

/-- Folding the spec-side segment list onto a starting path, as the spec's
"compute child path by joining current path and entry name". -/
def joinAll (remote_path : String) (segs : List String) : String :=
  segs.foldl (fun acc n => if acc = "" then n else acc ++ "/" ++ n) remote_path

/-! ### download_folder (dufs_downloader.py lines 137-157) -/

/-- Line 142: the prefix `remote_path.rstrip("/") + "/"` stripped from
collected paths. -/
def folderPfx (remote_path : String) : String :=
  pyRstripChar remote_path '/' ++ "/"

/-- Lines 140-141: the local target directory
`local_base / (remote_path.rstrip("/").split("/")[-1] or "download")`. -/
def folderTarget (local_base remote_path : String) : String :=
  let fn := (pySplitChar (pyRstripChar remote_path '/') '/').getLastD ""
  pathJoin local_base (if fn = "" then "download" else fn)

/-- Lines 144-148: the path of a collected file relative to the folder —
the prefix is stripped when present, else the collected path is used whole. -/
def folderRel (pfx file_path : String) : String :=
  if pyStartswith file_path pfx then pyDrop file_path pfx.length else file_path

/-- Lines 149-157: one iteration of the download loop. The per-file downloader
`dl` returns the `(success, skipped)` pair or the message of the exception it
raises; the `try`/`except` turns every outcome into a printed report line. -/
def fileReport (dl : String → String → Except String (Bool × Bool))
    (target_dir pfx file_path : String) : String :=
  let local_file := pathJoin target_dir (folderRel pfx file_path)
  match dl file_path local_file with
  | .ok (true, true) => "  ⊙ skipped (exists): " ++ pathName local_file
  | .ok (true, false) => "  ✓: " ++ pathName local_file
  | .ok (false, _) => "  ✗ failed: " ++ file_path
  | .error e => "  ✗ failed: " ++ file_path ++ ": " ++ e

/-- Lines 137-157: `download_folder` collects the files and reports each one
independently; the returned list holds the per-file report lines in order
(the leading count banner of line 143 is not part of the per-file loop). -/
def download_folder (dl : String → String → Except String (Bool × Bool))
    (t : FsTree) (remote_path local_base : String) : List String :=
  let files := collect_files_recursive remote_path t
  files.map (fileReport dl (folderTarget local_base remote_path) (folderPfx remote_path))

/-! ### interactive_download (dufs_downloader.py lines 174-266) -/

/-- Observable action chosen by one iteration of the interactive loop. -/
inductive SEffect where
  | rePrompt
  | quit
  | dlFolder (remote : String)
  | dlFile (remote localFile : String)
  | invalidNumber
  | notFound
  deriving DecidableEq

/-- Lines 208-266: the dispatch on one (already `.strip()`-ed) line of user
input, given the entries just listed for the current path. Returns the new
`current_path` and the action taken. `int(user_input)` is evaluated as the
digit value, which coincides with Python's `int` on the `isdigit()` strings
reaching it. -/
def sessionStep (save_dir current : String) (items : List (String × Bool))
    (input : String) : String × SEffect :=
  if input = "" then (current, .rePrompt)
  else if pyLower input = "q" ∨ pyLower input = "quit" ∨ pyLower input = "exit" then
    (current, .quit)
  else if input = ".." ∨ input = "cd .." then
    (if current ≠ "" then
       let parts := pySplitChar (pyRstripChar current '/') '/'
       ((if parts.length > 1 then joinSlash parts.dropLast else ""), .rePrompt)
     else (current, .rePrompt))
  else
    let force := pyStartswith (pyLower input) "d" && pyIsdigit (pyStripWs (pyDrop input 1))
    let user_input := if force then pyStripWs (pyDrop input 1) else input
    if pyIsdigit user_input then
      let idx := digitsVal user_input.data
      if 1 ≤ idx ∧ idx ≤ items.length then
        let entry := items.getD (idx - 1) ("", false)
        let target := if current ≠ "" then pyStripChar (current ++ "/" ++ entry.1) '/'
                      else entry.1
        if entry.2 && !force then (target, .rePrompt)
        else if entry.2 then (current, .dlFolder target)
        else (current, .dlFile target (pathJoin save_dir entry.1))
      else (current, .invalidNumber)
    else
      let name := input
      let target := if current ≠ "" then pyStripChar (current ++ "/" ++ name) '/' else name
      match items.find? (fun nd => nd.1 == name) with
      | none => (current, .notFound)
      | some nd =>
          if nd.2 then (target, .rePrompt)
          else (current, .dlFile target (pathJoin save_dir name))

/-! ### URL construction (dufs_downloader.py lines 27-35, 78-87) -/

/-- Components of a split URL: scheme, authority, path, query, fragment. -/
structure UrlParts where
  scheme : String
  netloc : String
  path : String
  query : String
  frag : String

/-- Split a string at the first occurrence of a character; the second
component is empty when the character is absent (indistinguishable, for the
URLs at hand, from a trailing separator). -/
def splitFirst (s : String) (c : Char) : String × String :=
  (⟨s.data.takeWhile (· ≠ c)⟩, ⟨(s.data.dropWhile (· ≠ c)).drop 1⟩)

/-- Schemes of `urllib.parse.uses_relative` that can occur here. -/
def usesRelative (s : String) : Bool :=
  s == "" || s == "http" || s == "https" || s == "ftp" || s == "file"

/-- Models `urllib.parse.urlsplit` for the URL shapes this client produces:
absolute `http://`/`https://` URLs and references without scheme or
authority. Fragment is split first, then query, as in CPython. -/
def pyUrlsplit (u : String) : UrlParts :=
  let p1 := splitFirst u '#'
  let p2 := splitFirst p1.1 '?'
  let core := p2.1
  if pyStartswith core "http://" then
    let rest := pyDrop core 7
    ⟨"http", ⟨rest.data.takeWhile (· ≠ '/')⟩, ⟨rest.data.dropWhile (· ≠ '/')⟩, p2.2, p1.2⟩
  else if pyStartswith core "https://" then
    let rest := pyDrop core 8
    ⟨"https", ⟨rest.data.takeWhile (· ≠ '/')⟩, ⟨rest.data.dropWhile (· ≠ '/')⟩, p2.2, p1.2⟩
  else ⟨"", "", core, p2.2, p1.2⟩

/-- Models `urllib.parse.urlunsplit` on the same shapes. -/
def pyUrlunsplit (p : UrlParts) : String :=
  let url := p.path
  let url := if p.netloc ≠ "" ∨ pyStartswith url "//" = true then
               "//" ++ p.netloc ++ (if url ≠ "" ∧ pyStartswith url "/" = false then "/" ++ url else url)
             else url
  let url := if p.scheme ≠ "" then p.scheme ++ ":" ++ url else url
  let url := if p.query ≠ "" then url ++ "?" ++ p.query else url
  if p.frag ≠ "" then url ++ "#" ++ p.frag else url

/-- Keep first and last element, drop empty strings strictly in between —
CPython's `segments[1:-1] = filter(None, segments[1:-1])` applied to the tail. -/
def filterInnerAux : List String → List String
  | [] => []
  | [a] => [a]
  | a :: rest => if a = "" then filterInnerAux rest else a :: filterInnerAux rest

/-- CPython's dot-segment resolution loop: `..` pops (silently on empty),
`.` is skipped, others are appended. -/
def resolveSegs : List String → List String → List String
  | acc, [] => acc
  | acc, s :: rest =>
      if s = ".." then resolveSegs acc.dropLast rest
      else if s = "." then resolveSegs acc rest
      else resolveSegs (acc ++ [s]) rest

/-- Models `urllib.parse.urljoin` (CPython's algorithm) restricted to the
shapes above: scheme inheritance, authority carry-over, and relative-path
merging with dot-segment resolution. The `params` (`;`) mechanics are omitted
and excluded by the well-formedness predicates. -/
def pyUrljoin (base url : String) : String :=
  if base = "" then url
  else if url = "" then base
  else
    let b := pyUrlsplit base
    let r := pyUrlsplit url
    let scheme := if r.scheme = "" then b.scheme else r.scheme
    if scheme ≠ b.scheme ∨ usesRelative scheme = false then url
    else if r.netloc ≠ "" then
      pyUrlunsplit ⟨scheme, r.netloc, r.path, r.query, r.frag⟩
    else
      let netloc := b.netloc
      if r.path = "" then
        pyUrlunsplit ⟨scheme, netloc, b.path, (if r.query = "" then b.query else r.query), r.frag⟩
      else
        let baseParts0 := pySplitChar b.path '/'
        let baseParts := if baseParts0.getLastD "" ≠ "" then baseParts0.dropLast else baseParts0
        let segments :=
          if pyStartswith r.path "/" then pySplitChar r.path '/'
          else
            match baseParts ++ pySplitChar r.path '/' with
            | [] => []
            | x :: xs => x :: filterInnerAux xs
        let resolved := resolveSegs [] segments
        let resolved := if segments.getLastD "" = "." ∨ segments.getLastD "" = ".." then
                          resolved ++ [""]
                        else resolved
        let path := joinSlash resolved
        let path := if path = "" then "/" else path
        pyUrlunsplit ⟨scheme, netloc, path, r.query, r.frag⟩

/-- Lines 29-32: the directory-listing URL —
`urljoin(base_url + "/", (path or ".").lstrip("/") + "/")`, a guaranteed
trailing slash, then the `?json` marker. -/
def listing_url (base_url path : String) : String :=
  let url := pyUrljoin (base_url ++ "/") (pyLstripChar (if path = "" then "." else path) '/' ++ "/")
  let url := if pyEndswith url "/" then url else url ++ "/"
  url ++ "?json"

/-- Lines 80 and 93: the file/HEAD URL —
`urljoin(base_url + "/", remote_path.lstrip("/"))`. -/
def head_url (base_url remote_path : String) : String :=
  pyUrljoin (base_url ++ "/") (pyLstripChar remote_path '/')

/-- Well-formed authority: nonempty, no `/`, `?` or `#`. -/
def wfNetloc (n : String) : Bool :=
  !(n == "") && n.data.all (fun c => !(c == '/') && !(c == '?') && !(c == '#'))

/-- Well-formed server base as produced by `normalize_base_url` from a
scheme-plus-host input: a literal `http://` or `https://` prefix followed by
a well-formed authority and no path. -/
def wfBase (b : String) : Bool :=
  (pyStartswith b "http://" && wfNetloc (pyDrop b 7)) ||
  (pyStartswith b "https://" && wfNetloc (pyDrop b 8))

/-- Well-formed relative remote path: nonempty, free of `:`, `?`, `#`, `;`,
and with nonempty non-dot `/`-separated segments. -/
def wfPath (p : String) : Bool :=
  !(p == "") &&
  p.data.all (fun c => !(c == ':') && !(c == '?') && !(c == '#') && !(c == ';')) &&
  (pySplitChar p '/').all (fun s => !(s == "") && !(s == ".") && !(s == ".."))

/-! ### Helper lemmas on the string primitives -/

theorem data_append (a b : String) : (a ++ b).data = a.data ++ b.data :=
  String.data_append a b

theorem eq_of_data_eq {a b : String} (h : a.data = b.data) : a = b := by
  cases a; cases b; exact congrArg String.mk h

theorem empty_data : ("" : String).data = [] := rfl

theorem ne_empty_of_data {a : String} (h : a.data ≠ []) : a ≠ "" := by
  intro he
  rw [he] at h
  exact h empty_data

theorem data_ne_of_ne_empty {a : String} (h : a ≠ "") : a.data ≠ [] := by
  intro he
  exact h (eq_of_data_eq (he.trans empty_data.symm))

theorem isPrefixOf_append_self (l m : List Char) : l.isPrefixOf (l ++ m) = true := by
  rw [List.isPrefixOf_iff_prefix]
  exact List.prefix_append l m

theorem dropWhile_head_not {p : Char → Bool} {a : Char} :
    ∀ l : List Char, (l.dropWhile p).head? = some a → p a = false := by
  intro l
  induction l with
  | nil => intro h; simp [List.dropWhile] at h
  | cons x t ih =>
      intro h
      by_cases hx : p x
      · rw [List.dropWhile_cons_of_pos hx] at h; exact ih h
      · rw [List.dropWhile_cons_of_neg hx] at h
        simp at h
        rw [h] at hx
        simpa using hx

theorem pyEndswith_slash (s : String) :
    pyEndswith s "/" = true ↔ s.data.reverse.head? = some '/' := by
  have hdef : pyEndswith s "/" = List.isPrefixOf ['/'] s.data.reverse := rfl
  rw [hdef, List.isPrefixOf_iff_prefix]
  cases h : s.data.reverse with
  | nil => simp [List.prefix_nil]
  | cons b bs => rw [List.cons_prefix_cons]; simp [List.nil_prefix, eq_comm]

theorem rstrip_head_ne {s : String} {c a : Char}
    (h : (pyRstripChar s c).data.reverse.head? = some a) : a ≠ c := by
  unfold pyRstripChar at h
  rw [show (⟨(s.data.reverse.dropWhile (· = c)).reverse⟩ : String).data =
        (s.data.reverse.dropWhile (· = c)).reverse from rfl, List.reverse_reverse] at h
  have := dropWhile_head_not _ h
  simpa using this

theorem rstrip_not_endswith {s : String} {c : Char}
    (_h : pyRstripChar s c ≠ "") : (pyRstripChar s c).data.reverse.head? ≠ some c := by
  intro hc
  exact absurd rfl (rstrip_head_ne hc)

/-! ### Claim C3 — normalize_base_url -/

/-- Claim C3, counterexample: on the empty input `normalize_base_url` does not
fail — it returns the bare scheme `"http://"`, which ends with a slash,
refuting both the "fails on empty input" and the "never ends with a slash"
parts of the claim. -/
theorem normalize_base_url_empty :
    normalize_base_url "" = "http://" ∧ pyEndswith (normalize_base_url "") "/" = true :=
  ⟨rfl, by decide⟩

/-- Claim C3 (amended): for every input whose whitespace-stripped,
slash-rstripped form is nonempty, the normalized URL starts with `http://` or
`https://` and does not end with a slash; on inputs whose stripped form is
empty the function returns `"http://"` instead of failing. -/
theorem normalize_base_url_invariant (url : String)
    (h : pyRstripChar (pyStripWs url) '/' ≠ "") :
    (pyStartswith (normalize_base_url url) "http://" = true ∨
      pyStartswith (normalize_base_url url) "https://" = true) ∧
    pyEndswith (normalize_base_url url) "/" = false := by
  have hdata : (pyRstripChar (pyStripWs url) '/').data ≠ [] := data_ne_of_ne_empty h
  have hrev : (pyRstripChar (pyStripWs url) '/').data.reverse ≠ [] := by
    simpa using hdata
  obtain ⟨a, t, hat⟩ := List.exists_cons_of_ne_nil hrev
  have hane : a ≠ '/' := rstrip_head_ne (by rw [hat]; rfl)
  unfold normalize_base_url
  by_cases hb : (pyStartswith (pyRstripChar (pyStripWs url) '/') "http://" ||
      pyStartswith (pyRstripChar (pyStripWs url) '/') "https://") = true
  · rw [if_pos hb]
    constructor
    · rcases Bool.or_eq_true_iff.mp hb with h1 | h1
      · exact Or.inl h1
      · exact Or.inr h1
    · rw [Bool.eq_false_iff]
      intro hend
      have := (pyEndswith_slash _).mp hend
      rw [hat] at this
      exact hane (by simpa using this)
  · rw [if_neg hb]
    constructor
    · refine Or.inl ?_
      show List.isPrefixOf "http://".data ("http://" ++ pyRstripChar (pyStripWs url) '/').data = true
      rw [data_append]
      exact isPrefixOf_append_self _ _
    · rw [Bool.eq_false_iff]
      intro hend
      have hr := (pyEndswith_slash _).mp hend
      rw [data_append, List.reverse_append, hat] at hr
      exact hane (by simpa using hr)

/-- Witness for `normalize_base_url_invariant` at a concrete host input. -/
theorem normalize_base_url_invariant_witness :
    (pyStartswith (normalize_base_url "  example.com:8080/ ") "http://" = true ∨
      pyStartswith (normalize_base_url "  example.com:8080/ ") "https://" = true) ∧
    pyEndswith (normalize_base_url "  example.com:8080/ ") "/" = false :=
  normalize_base_url_invariant "  example.com:8080/ " (by decide)

/-! ### Claim C9 — get_remote_size -/

/-- Claim C9: `get_remote_size` is total and returns `none` on a failed HEAD
request, a missing `Content-Length` header, or an unparsable header value;
otherwise it returns exactly the parsed integer value of the header. -/
theorem get_remote_size_never_raises (o : HeadOutcome) :
    (o = .err → get_remote_size o = none) ∧
    (o = .ok none → get_remote_size o = none) ∧
    (∀ s, o = .ok (some s) → pyIntParse s = none → get_remote_size o = none) ∧
    (get_remote_size o = none ∨
      ∃ s n, o = .ok (some s) ∧ pyIntParse s = some n ∧ get_remote_size o = some n) := by
  refine ⟨?_, ?_, ?_, ?_⟩
  · intro h; rw [h]; rfl
  · intro h; rw [h]; rfl
  · intro s h hp; rw [h]; simpa [get_remote_size] using hp
  · match o with
    | .err => exact Or.inl rfl
    | .ok none => exact Or.inl rfl
    | .ok (some s) =>
        match hp : pyIntParse s with
        | none => exact Or.inl (by simpa [get_remote_size] using hp)
        | some n =>
            exact Or.inr ⟨s, n, rfl, hp, by simpa [get_remote_size] using hp⟩

/-- Witness for `get_remote_size_never_raises`: a malformed header value
yields `none` rather than an error. -/
theorem get_remote_size_never_raises_witness :
    get_remote_size (.ok (some "12x")) = none :=
  (get_remote_size_never_raises (.ok (some "12x"))).2.2.1 "12x" rfl (by decide)

/-! ### Claim C2 — download_file skip-by-size -/

/-- Claim C2: when the local path holds an existing regular file and the size
probe returns a non-negative size equal to its byte length, `download_file`
returns `(success := true, skipped := true)`, performs no transfer, and leaves
the local file exactly as it was. -/
theorem download_file_skip_same_size (env : DlEnv) (c : List Nat) (n : Int)
    (h1 : env.localFile = some c) (h2 : get_remote_size env.head = some n)
    (h3 : 0 ≤ n) (h4 : (c.length : Int) = n) :
    download_file env = .ok ⟨true, true, false, some c⟩ := by
  unfold download_file
  rw [h1, h2]
  exact if_pos ⟨h3, h4⟩

/-- Witness for `download_file_skip_same_size` on a concrete environment:
a three-byte local file and a HEAD response advertising `Content-Length: 3`. -/
theorem download_file_skip_same_size_witness :
    download_file ⟨some [7, 7, 7], .ok (some "3"), true, 0, [9], false, 0, [], .ok []⟩ =
      .ok ⟨true, true, false, some [7, 7, 7]⟩ :=
  download_file_skip_same_size _ [7, 7, 7] 3 rfl (by decide) (by decide) (by decide)

/-! ### Claim C1 — list_directory fallback policy -/

/-- Claim C1, counterexample: a structured response that lacks the `paths`
field does not trigger the `?simple` fallback — `list_directory` returns the
empty entry list even though the fallback body holds two entries. -/
theorem list_directory_missing_paths_no_fallback :
    list_directory (.ok (JVal.obj [("foo", JVal.num 1)])) (.ok "a\nb/") = .ok [] ∧
    fetch_simple (.ok "a\nb/") = .ok [("a", false), ("b", true)] ∧
    (Except.ok [] : Except PyExc (List (JVal × Bool))) ≠
      .ok [(JVal.str "a", false), (JVal.str "b", true)] := by
  refine ⟨rfl, rfl, ?_⟩
  intro hcontra
  injection hcontra with h2
  exact List.noConfusion h2

/-- Claim C1 (amended): the fallback to the line-oriented listing happens
exactly when the structured parse raises `KeyError` or `TypeError` (in
practice a non-iterable `paths` value), and then `list_directory` returns the
fallback's entry set; a response merely lacking `paths` yields an empty entry
list without consulting the fallback; a network failure propagates uncaught. -/
theorem list_directory_fallback_policy (jr : JsonFetch) (sb : Except PyExc String) :
    ((fetch_json jr >>= parse_json_listing) = .error .keyError ∨
      (fetch_json jr >>= parse_json_listing) = .error .typeError →
      list_directory jr sb =
        (fetch_simple sb).map (List.map (fun nd => (JVal.str nd.1, nd.2)))) ∧
    (list_directory .netErr sb = .error .urlError) ∧
    (∀ fs : List (String × JVal), fs.lookup "paths" = none →
      list_directory (.ok (.obj fs)) sb = .ok []) := by
  refine ⟨?_, rfl, ?_⟩
  · intro hcase
    unfold list_directory
    rcases hcase with hc | hc <;> rw [hc] <;> exact if_pos (by simp)
  · intro fs hlk
    have hd : dictGet (JVal.obj fs) "paths" (JVal.arr []) = .ok (.arr []) := by
      simp [dictGet, hlk]
    have hparse : parse_json_listing (.obj fs) = .ok [] := by
      unfold parse_json_listing
      rw [hd]
      rfl
    have hparse2 : fetch_json (.ok (.obj fs)) >>= parse_json_listing = .ok [] := hparse
    unfold list_directory
    rw [hparse2]

/-- Witness for `list_directory_fallback_policy`: a `paths` field holding a
non-iterable number raises `TypeError`, and the `?simple` body is parsed and
returned instead. -/
theorem list_directory_fallback_policy_witness :
    list_directory (.ok (JVal.obj [("paths", JVal.num 7)])) (.ok "x\ny/") =
      .ok [(JVal.str "x", false), (JVal.str "y", true)] := by
  have h := (list_directory_fallback_policy (.ok (JVal.obj [("paths", JVal.num 7)]))
      (.ok "x\ny/")).1 (Or.inr rfl)
  rw [h]
  rfl

/-! ### Claim C5 — download_folder isolates per-file failures -/

/-- Claim C5: `download_folder` produces one report line per collected file —
every file is attempted, in order, regardless of earlier outcomes — and a
file whose download raises is reported with a message carrying the remote
path and the error detail; no exception escapes the loop (the function is
total by construction). -/
theorem download_folder_isolates_failures
    (dl : String → String → Except String (Bool × Bool)) (t : FsTree)
    (remote_path local_base : String) :
    (download_folder dl t remote_path local_base).length =
      (collect_files_recursive remote_path t).length ∧
    (∀ i e, i < (collect_files_recursive remote_path t).length →
      dl ((collect_files_recursive remote_path t).getD i "")
         (pathJoin (folderTarget local_base remote_path)
           (folderRel (folderPfx remote_path)
             ((collect_files_recursive remote_path t).getD i ""))) = .error e →
      (download_folder dl t remote_path local_base).getD i "" =
        "  ✗ failed: " ++ (collect_files_recursive remote_path t).getD i "" ++ ": " ++ e) := by
  constructor
  · simp [download_folder]
  · intro i e hi hdl
    show (List.map (fileReport dl (folderTarget local_base remote_path)
        (folderPfx remote_path)) (collect_files_recursive remote_path t)).getD i "" = _
    rw [List.getD_eq_getElem?_getD, List.getElem?_map, List.getElem?_eq_getElem hi]
    show fileReport dl (folderTarget local_base remote_path) (folderPfx remote_path)
        ((collect_files_recursive remote_path t).get ⟨i, hi⟩) = _
    rw [show (collect_files_recursive remote_path t).get ⟨i, hi⟩ =
          (collect_files_recursive remote_path t).getD i "" from
        (List.getD_eq_getElem _ _ hi).symm]
    simp only [fileReport, hdl]

/-- Witness for `download_folder_isolates_failures`: a downloader that always
raises still yields a per-file failure report naming the path and the error. -/
theorem download_folder_isolates_failures_witness :
    (download_folder (fun _ _ => .error "boom")
        (.dir (.cons "f.txt" .file .nil)) "docs" "save").getD 0 "" =
      "  ✗ failed: docs/f.txt: boom" := by
  have h := (download_folder_isolates_failures (fun _ _ => .error "boom")
      (.dir (.cons "f.txt" .file .nil)) "docs" "save").2 0 "boom" (by decide) rfl
  rw [h]
  rfl

/-! ### Helper lemmas on rstrip and path concatenation -/

theorem head?_append_left {α : Type} (X Y : List α) (h : X ≠ []) :
    (X ++ Y).head? = X.head? := by
  cases X with
  | nil => exact absurd rfl h
  | cons a t => rfl

theorem head?_mem {α : Type} {l : List α} {a : α} (h : l.head? = some a) : a ∈ l :=
  List.mem_of_mem_head? (by simp [h])

theorem rstrip_eq_self_of_last {s : String} {c : Char}
    (h : ∀ a, s.data.reverse.head? = some a → a ≠ c) : pyRstripChar s c = s := by
  apply eq_of_data_eq
  show (s.data.reverse.dropWhile (· = c)).reverse = s.data
  cases hrev : s.data.reverse with
  | nil =>
      simp only [List.reverse_eq_nil_iff] at hrev
      simp [hrev]
  | cons a t =>
      have ha := h a (by rw [hrev]; rfl)
      rw [List.dropWhile_cons_of_neg (by simpa using ha), ← hrev, List.reverse_reverse]

theorem rstrip_idem (s : String) (c : Char) :
    pyRstripChar (pyRstripChar s c) c = pyRstripChar s c := by
  apply rstrip_eq_self_of_last
  intro a ha
  exact rstrip_head_ne ha

theorem rstrip_fixed_of_all_ne {s : String} {c : Char} (h : ∀ x ∈ s.data, x ≠ c) :
    pyRstripChar s c = s := by
  apply rstrip_eq_self_of_last
  intro a ha
  exact h a (List.mem_reverse.mp (head?_mem ha))

theorem rstrip_append_name_fixed (A name : String) (hne : name ≠ "")
    (hfree : ∀ x ∈ name.data, x ≠ '/') :
    pyRstripChar (A ++ "/" ++ name) '/' = A ++ "/" ++ name := by
  apply rstrip_eq_self_of_last
  intro a ha
  rw [data_append, List.reverse_append] at ha
  have hdr : name.data.reverse ≠ [] := by
    simpa using data_ne_of_ne_empty hne
  rw [head?_append_left _ _ hdr] at ha
  exact hfree a (List.mem_reverse.mp (head?_mem ha))

theorem str_append_assoc (a b c : String) : a ++ b ++ c = a ++ (b ++ c) := by
  apply eq_of_data_eq
  simp [data_append, List.append_assoc]

theorem rstrip_dropWhile_fixed {A : String} (hA : pyRstripChar A '/' = A) :
    A.data.reverse.dropWhile (· = '/') = A.data.reverse := by
  have h := congrArg (fun s : String => s.data.reverse) hA
  simpa [pyRstripChar] using h

theorem rstrip_concat (A name : String) (hA : pyRstripChar A '/' = A) :
    pyRstripChar (A ++ "/" ++ name) '/' = A ++ "/" ++ pyRstripChar name '/' ∨
    pyRstripChar (A ++ "/" ++ name) '/' = A := by
  have hdata : (A ++ "/" ++ name).data.reverse =
      name.data.reverse ++ ('/' :: A.data.reverse) := by
    rw [data_append, data_append, List.reverse_append, List.reverse_append]
    rfl
  by_cases h : (name.data.reverse.dropWhile (· = '/')).isEmpty = true
  · right
    apply eq_of_data_eq
    show ((A ++ "/" ++ name).data.reverse.dropWhile (· = '/')).reverse = A.data
    rw [hdata, List.dropWhile_append, if_pos h, List.dropWhile_cons_of_pos (by simp),
        rstrip_dropWhile_fixed hA, List.reverse_reverse]
  · left
    apply eq_of_data_eq
    show ((A ++ "/" ++ name).data.reverse.dropWhile (· = '/')).reverse =
      (A ++ "/" ++ pyRstripChar name '/').data
    have hpr : (pyRstripChar name '/').data =
        (name.data.reverse.dropWhile (· = '/')).reverse := rfl
    rw [hdata, List.dropWhile_append, if_neg h, List.reverse_append, data_append, data_append,
        hpr, List.reverse_cons, List.reverse_reverse]

/-! ### Claim C4 — collect_files_recursive matches the spec traversal -/

mutual
theorem collect_spec_tree : ∀ (t : FsTree) (rp : String),
    pyRstripChar rp '/' = rp → treeWF t = true →
    collect_files_recursive rp t = (specFiles t).map (joinAll rp)
  | .file, _, _, _ => rfl
  | .dir es, rp, hrp, hwf => collect_spec_entries es rp hrp hwf

theorem collect_spec_entries : ∀ (es : FsEntries) (rp : String),
    pyRstripChar rp '/' = rp → entriesWF es = true →
    collectEntries rp es = (specFilesEntries es).map (joinAll rp)
  | .nil, _, _, _ => rfl
  | .cons name sub rest, rp, hrp, hwf => by
      have hwf' : (!(name == "") && name.data.all (fun c => !(c == '/')) && treeWF sub &&
          entriesWF rest) = true := hwf
      rw [Bool.and_eq_true, Bool.and_eq_true, Bool.and_eq_true] at hwf'
      obtain ⟨⟨⟨hn1, hn2⟩, hsub⟩, hrest⟩ := hwf'
      have hname_ne : name ≠ "" := by simpa using hn1
      have hname_free : ∀ x ∈ name.data, x ≠ '/' := by
        intro x hx
        have := List.all_eq_true.mp hn2 x hx
        simpa using this
      have ihrest := collect_spec_entries rest rp hrp hrest
      cases sub with
      | file =>
          show ((if name = "." ∨ name = ".." then []
                 else [if rp ≠ "" then pyRstripChar rp '/' ++ "/" ++ name else name]) ++
                collectEntries rp rest) =
               ((if name = "." ∨ name = ".." then [] else [[name]]) ++
                specFilesEntries rest).map (joinAll rp)
          rw [List.map_append, ← ihrest]
          congr 1
          by_cases hdot : name = "." ∨ name = ".."
          · rw [if_pos hdot, if_pos hdot]
            rfl
          · rw [if_neg hdot, if_neg hdot, hrp]
            show [if rp ≠ "" then rp ++ "/" ++ name else name] = [joinAll rp [name]]
            congr 1
            unfold joinAll
            rw [List.foldl_cons, List.foldl_nil]
            by_cases hrpe : rp = "" <;> simp [hrpe]
      | dir es2 =>
          show ((if name = "." ∨ name = ".." then []
                 else collectEntries
                   (if rp ≠ "" then pyRstripChar rp '/' ++ "/" ++ name else name) es2) ++
                collectEntries rp rest) =
               ((if name = "." ∨ name = ".." then []
                 else (specFilesEntries es2).map (fun segs => name :: segs)) ++
                specFilesEntries rest).map (joinAll rp)
          rw [List.map_append, ← ihrest]
          congr 1
          by_cases hdot : name = "." ∨ name = ".."
          · rw [if_pos hdot, if_pos hdot]
            rfl
          · rw [if_neg hdot, if_neg hdot, hrp]
            have hchild : pyRstripChar (if rp ≠ "" then rp ++ "/" ++ name else name) '/' =
                (if rp ≠ "" then rp ++ "/" ++ name else name) := by
              by_cases hrpe : rp = ""
              · have hcond : ¬(rp ≠ "") := by simp [hrpe]
                rw [if_neg hcond]
                exact rstrip_fixed_of_all_ne hname_free
              · rw [if_pos hrpe]
                exact rstrip_append_name_fixed rp name hname_ne hname_free
            have hsub' : entriesWF es2 = true := hsub
            have ih2 := collect_spec_entries es2
              (if rp ≠ "" then rp ++ "/" ++ name else name) hchild hsub'
            rw [ih2, List.map_map]
            apply List.map_congr_left
            intro segs _
            show joinAll (if rp ≠ "" then rp ++ "/" ++ name else name) segs =
              joinAll rp (name :: segs)
            unfold joinAll
            rw [List.foldl_cons]
            congr 1
            by_cases hrpe : rp = "" <;> simp [hrpe]
end

/-- Claim C4: `collect_files_recursive` computes exactly the spec's depth-first
pre-order file traversal — directories excluded, `.`/`..` skipped, each file
path the join of the current path with the entry names along the way — for
every well-formed served tree and rstrip-normal starting path. -/
theorem collect_files_matches_spec (remote_path : String) (t : FsTree)
    (hwf : treeWF t = true) (hrp : pyRstripChar remote_path '/' = remote_path) :
    collect_files_recursive remote_path t = (specFiles t).map (joinAll remote_path) :=
  collect_spec_tree t remote_path hrp hwf

/-- Witness for `collect_files_matches_spec` on the spec's example tree
`A/ (x.txt, B/ (y.txt))`: the result is `["A/x.txt", "A/B/y.txt"]` in
depth-first order. -/
theorem collect_files_matches_spec_witness :
    collect_files_recursive "A"
      (.dir (.cons "x.txt" .file (.cons "B" (.dir (.cons "y.txt" .file .nil)) .nil))) =
      ["A/x.txt", "A/B/y.txt"] := by
  rw [collect_files_matches_spec "A" _ (by decide) (by decide)]
  rfl

/-! ### Claim C10 — collected paths extend the folder prefix -/

mutual
theorem collect_pfx_tree : ∀ (t : FsTree) (rp : String), rp ≠ "" →
    ∀ fp ∈ collect_files_recursive rp t, ∃ rest, fp = pyRstripChar rp '/' ++ "/" ++ rest
  | .file, _, _, fp, hmem => absurd hmem (by simp [collect_files_recursive])
  | .dir es, rp, hne, fp, hmem => collect_pfx_entries es rp hne fp hmem

theorem collect_pfx_entries : ∀ (es : FsEntries) (rp : String), rp ≠ "" →
    ∀ fp ∈ collectEntries rp es, ∃ rest, fp = pyRstripChar rp '/' ++ "/" ++ rest
  | .nil, _, _, fp, hmem => absurd hmem (by simp [collectEntries])
  | .cons name sub rest, rp, hne, fp, hmem => by
      simp only [collectEntries] at hmem
      rcases List.mem_append.mp hmem with h1 | h2
      · by_cases hdot : name = "." ∨ name = ".."
        · rw [if_pos hdot] at h1
          simp at h1
        · rw [if_neg hdot] at h1
          simp only [if_pos hne] at h1
          cases sub with
          | file =>
              refine ⟨name, ?_⟩
              simpa using h1
          | dir es2 =>
              have hchild_ne : pyRstripChar rp '/' ++ "/" ++ name ≠ "" := by
                apply ne_empty_of_data
                rw [data_append]
                simp [List.append_eq_nil, data_append]
              obtain ⟨r, hr⟩ :=
                collect_pfx_entries es2 (pyRstripChar rp '/' ++ "/" ++ name) hchild_ne fp h1
              rcases rstrip_concat (pyRstripChar rp '/') name (rstrip_idem rp '/') with hc | hc
              · refine ⟨pyRstripChar name '/' ++ "/" ++ r, ?_⟩
                rw [hr, hc]
                apply eq_of_data_eq
                simp [data_append, List.append_assoc]
              · exact ⟨r, by rw [hr, hc]⟩
      · exact collect_pfx_entries rest rp hne fp h2
end

/-- Claim C10: for a nonempty remote path every collected file path is the
folder prefix (`remote_path.rstrip("/") + "/"`) followed by a remainder, so
`download_folder`'s relative path is always computed by stripping the prefix —
the non-stripping fallback branch of `folderRel` is unreachable. -/
theorem collect_paths_extend_folder (remote_path : String) (t : FsTree) (fp : String)
    (hne : remote_path ≠ "") (hmem : fp ∈ collect_files_recursive remote_path t) :
    ∃ rest, fp = folderPfx remote_path ++ rest ∧
      pyStartswith fp (folderPfx remote_path) = true ∧
      folderRel (folderPfx remote_path) fp = pyDrop fp (folderPfx remote_path).length := by
  obtain ⟨rest, hrest⟩ := collect_pfx_tree t remote_path hne fp hmem
  have hfp : fp = folderPfx remote_path ++ rest := by
    rw [hrest]
    show pyRstripChar remote_path '/' ++ "/" ++ rest =
      (pyRstripChar remote_path '/' ++ "/") ++ rest
    rfl
  have hstart : pyStartswith fp (folderPfx remote_path) = true := by
    rw [hfp]
    show (folderPfx remote_path).data.isPrefixOf (folderPfx remote_path ++ rest).data = true
    rw [data_append]
    exact isPrefixOf_append_self _ _
  refine ⟨rest, hfp, hstart, ?_⟩
  unfold folderRel
  rw [if_pos hstart]

/-- Witness for `collect_paths_extend_folder` at the remote folder `docs`
holding `readme.txt`. -/
theorem collect_paths_extend_folder_witness :
    ∃ rest, "docs/readme.txt" = folderPfx "docs" ++ rest ∧
      pyStartswith "docs/readme.txt" (folderPfx "docs") = true ∧
      folderRel (folderPfx "docs") "docs/readme.txt" =
        pyDrop "docs/readme.txt" (folderPfx "docs").length :=
  collect_paths_extend_folder "docs" (.dir (.cons "readme.txt" .file .nil))
    "docs/readme.txt" (by decide) (by decide)

/-! ### Split / join roundtrip lemmas -/

theorem splitChAux_no_sep (c : Char) : ∀ l : List Char, (∀ x ∈ l, x ≠ c) →
    splitChAux c l = [l]
  | [], _ => rfl
  | a :: rest, h => by
      have ha : ¬(a = c) := h a (by simp)
      have ih := splitChAux_no_sep c rest (fun x hx => h x (by simp [hx]))
      simp only [splitChAux, if_neg ha, ih]

theorem splitChAux_append_sep (c : Char) : ∀ (s m : List Char), (∀ x ∈ s, x ≠ c) →
    splitChAux c (s ++ c :: m) = s :: splitChAux c m
  | [], m, _ => by simp [splitChAux]
  | a :: s', m, h => by
      have ha : ¬(a = c) := h a (by simp)
      have ih := splitChAux_append_sep c s' m (fun x hx => h x (by simp [hx]))
      show splitChAux c (a :: (s' ++ c :: m)) = (a :: s') :: splitChAux c m
      simp only [splitChAux, if_neg ha, ih]

theorem joinCh_cons (c : Char) (g : List Char) (gs : List (List Char)) (h : gs ≠ []) :
    joinCh c (g :: gs) = g ++ c :: joinCh c gs := by
  cases gs with
  | nil => exact absurd rfl h
  | cons g2 rest => rfl

theorem joinCh_ne_nil (c : Char) (g : List Char) (gs : List (List Char)) (hg : g ≠ []) :
    joinCh c (g :: gs) ≠ [] := by
  cases gs with
  | nil => simpa [joinCh] using hg
  | cons g2 rest => simp [joinCh]

theorem splitCh_joinCh (c : Char) : ∀ gs : List (List Char), gs ≠ [] →
    (∀ g ∈ gs, ∀ x ∈ g, x ≠ c) → splitChAux c (joinCh c gs) = gs
  | [], h, _ => absurd rfl h
  | [g], _, hfree => by
      show splitChAux c g = [g]
      exact splitChAux_no_sep c g (hfree g (by simp))
  | g :: g2 :: rest, _, hfree => by
      rw [joinCh_cons c g (g2 :: rest) (by simp),
          splitChAux_append_sep c g (joinCh c (g2 :: rest)) (hfree g (by simp)),
          splitCh_joinCh c (g2 :: rest) (by simp)
            (fun g' hg' => hfree g' (List.mem_cons_of_mem _ hg'))]

theorem pySplit_joinSlash (segs : List String) (hne : segs ≠ [])
    (hfree : ∀ s ∈ segs, ∀ x ∈ s.data, x ≠ '/') :
    pySplitChar (joinSlash segs) '/' = segs := by
  unfold pySplitChar
  have h1 : (joinSlash segs).data = joinCh '/' (segs.map String.data) := rfl
  rw [h1, splitCh_joinCh '/' (segs.map String.data) (by simpa using hne)
      (fun g hg => by
        obtain ⟨s, hs, rfl⟩ := List.mem_map.mp hg
        exact hfree s hs)]
  rw [List.map_map]
  exact (List.map_congr_left (fun s _ => rfl)).trans (List.map_id segs)

theorem joinSlash_ne_empty (s0 : String) (rest : List String) (h : s0 ≠ "") :
    joinSlash (s0 :: rest) ≠ "" := by
  apply ne_empty_of_data
  show joinCh '/' (s0.data :: rest.map String.data) ≠ []
  exact joinCh_ne_nil '/' s0.data _ (data_ne_of_ne_empty h)

theorem joinCh_last_ne (c : Char) : ∀ gs : List (List Char), (∀ g ∈ gs, g ≠ []) →
    (∀ g ∈ gs, ∀ x ∈ g, x ≠ c) → ∀ a, (joinCh c gs).reverse.head? = some a → a ≠ c
  | [], _, _, a, ha => by simp [joinCh] at ha
  | [g], _, hfree, a, ha =>
      hfree g (by simp) a (List.mem_reverse.mp (head?_mem ha))
  | g :: g2 :: rest, hne, hfree, a, ha => by
      rw [joinCh_cons c g (g2 :: rest) (by simp), List.reverse_append,
          List.reverse_cons] at ha
      have hJ : joinCh c (g2 :: rest) ≠ [] := joinCh_ne_nil c g2 rest (hne g2 (by simp))
      have hJr : (joinCh c (g2 :: rest)).reverse ≠ [] := by simpa using hJ
      rw [head?_append_left _ _ (by simp), head?_append_left _ _ hJr] at ha
      exact joinCh_last_ne c (g2 :: rest) (fun g' h' => hne g' (List.mem_cons_of_mem _ h'))
        (fun g' h' => hfree g' (List.mem_cons_of_mem _ h')) a ha

theorem joinSlash_rstrip_fixed (segs : List String)
    (hpieces : ∀ s ∈ segs, s ≠ "" ∧ ∀ x ∈ s.data, x ≠ '/') :
    pyRstripChar (joinSlash segs) '/' = joinSlash segs := by
  apply rstrip_eq_self_of_last
  intro a ha
  exact joinCh_last_ne '/' (segs.map String.data)
    (fun g hg => by
      obtain ⟨s, hs, rfl⟩ := List.mem_map.mp hg
      exact data_ne_of_ne_empty (hpieces s hs).1)
    (fun g hg => by
      obtain ⟨s, hs, rfl⟩ := List.mem_map.mp hg
      exact (hpieces s hs).2)
    a ha

/-! ### Claim C7 — parent navigation pops one segment -/

/-- Claim C7: on input `..` (or the exact phrase `cd ..`) the session pops
exactly one segment from the current path — a path made of well-formed
segments transitions to the join of all but the last — and is a no-op at the
root (empty current path). No download is triggered. -/
theorem session_parent_nav (save_dir current : String) (items : List (String × Bool))
    (input : String) (hin : input = ".." ∨ input = "cd ..") :
    (current = "" → sessionStep save_dir current items input = (current, .rePrompt)) ∧
    (∀ segs : List String, segs ≠ [] →
      (∀ s ∈ segs, s ≠ "" ∧ ∀ x ∈ s.data, x ≠ '/') →
      current = joinSlash segs →
      sessionStep save_dir current items input = (joinSlash segs.dropLast, .rePrompt)) := by
  have h0 : input ≠ "" := by rcases hin with h | h <;> (rw [h]; decide)
  have hq : ¬(pyLower input = "q" ∨ pyLower input = "quit" ∨ pyLower input = "exit") := by
    rcases hin with h | h <;> (rw [h]; decide)
  constructor
  · intro hcur
    unfold sessionStep
    rw [if_neg h0, if_neg hq, if_pos hin, if_neg (show ¬(current ≠ "") by simp [hcur])]
  · intro segs hne hpieces hcur
    obtain ⟨s0, rest, rfl⟩ := List.exists_cons_of_ne_nil hne
    have hcne : current ≠ "" := by
      rw [hcur]
      exact joinSlash_ne_empty s0 rest (hpieces s0 (by simp)).1
    have hrs : pyRstripChar current '/' = current := by
      rw [hcur]
      exact joinSlash_rstrip_fixed _ hpieces
    have hsplit : pySplitChar (pyRstripChar current '/') '/' = s0 :: rest := by
      rw [hrs, hcur]
      exact pySplit_joinSlash _ (by simp) (fun s hs => (hpieces s hs).2)
    unfold sessionStep
    rw [if_neg h0, if_neg hq, if_pos hin, if_pos hcne, hsplit]
    show ((if (s0 :: rest).length > 1 then joinSlash (s0 :: rest).dropLast else ""),
        SEffect.rePrompt) = (joinSlash (s0 :: rest).dropLast, SEffect.rePrompt)
    cases rest with
    | nil =>
        rw [if_neg (by simp)]
        rfl
    | cons g2 gr =>
        rw [if_pos (by simp)]

/-- Witness for `session_parent_nav`: input `".."` at path `"a/b"` transitions
to `"a"` without any download. -/
theorem session_parent_nav_witness :
    sessionStep "sv" "a/b" [] ".." = ("a", SEffect.rePrompt) := by
  have h := (session_parent_nav "sv" "a/b" [] ".." (Or.inl rfl)).2 ["a", "b"]
    (by decide) (by decide) (by decide)
  rw [h]
  decide

/-! ### Claim C6 — forced download never changes the current path -/

theorem dropWhile_id_of_none {p : Char → Bool} :
    ∀ l : List Char, (∀ x ∈ l, p x = false) → l.dropWhile p = l
  | [], _ => rfl
  | a :: t, h => by
      rw [List.dropWhile_cons_of_neg (by simp [h a (by simp)])]

theorem digit_not_space {x : Char} (hx : x.isDigit = true) : pyIsSpace x = false := by
  by_contra hsp
  rw [Bool.not_eq_false] at hsp
  unfold pyIsSpace at hsp
  simp only [Bool.or_eq_true, decide_eq_true_eq] at hsp
  rcases hsp with ((((h | h) | h) | h) | h) | h <;> subst h <;> exact absurd hx (by decide)

/-- Claim C6: an input of the letter `d` followed by digits leaves
`current_path` unchanged in all cases; an in-range 1-based index invokes the
folder download on a directory entry, the single-file download into the
session's save directory on a file entry, and an out-of-range index reports
an invalid number — never navigating. -/
theorem session_forced_download (save_dir current : String) (items : List (String × Bool))
    (ds : String) (hne : ds ≠ "") (hdig : ∀ ch ∈ ds.data, ch.isDigit = true) :
    (sessionStep save_dir current items ("d" ++ ds)).1 = current ∧
    (¬(1 ≤ digitsVal ds.data ∧ digitsVal ds.data ≤ items.length) →
      (sessionStep save_dir current items ("d" ++ ds)).2 = SEffect.invalidNumber) ∧
    ((1 ≤ digitsVal ds.data ∧ digitsVal ds.data ≤ items.length) →
      ((items.getD (digitsVal ds.data - 1) ("", false)).2 = true →
        ∃ p, (sessionStep save_dir current items ("d" ++ ds)).2 = SEffect.dlFolder p) ∧
      ((items.getD (digitsVal ds.data - 1) ("", false)).2 = false →
        ∃ p, (sessionStep save_dir current items ("d" ++ ds)).2 =
          SEffect.dlFile p
            (pathJoin save_dir (items.getD (digitsVal ds.data - 1) ("", false)).1))) := by
  have hd_data : ("d" ++ ds).data = 'd' :: ds.data := by
    rw [data_append]
    rfl
  have h0 : ("d" ++ ds) ≠ "" := ne_empty_of_data (by rw [hd_data]; simp)
  have hlow : (pyLower ("d" ++ ds)).data = 'd' :: ds.data.map Char.toLower := by
    show ("d" ++ ds).data.map Char.toLower = 'd' :: ds.data.map Char.toLower
    rw [hd_data, List.map_cons]
    have : Char.toLower 'd' = 'd' := by decide
    rw [this]
  have hq : ¬(pyLower ("d" ++ ds) = "q" ∨ pyLower ("d" ++ ds) = "quit" ∨
      pyLower ("d" ++ ds) = "exit") := by
    intro hcontra
    rcases hcontra with h | h | h <;>
      (have hdq := congrArg String.data h
       rw [hlow] at hdq
       injection hdq with h1 _
       exact absurd h1 (by decide))
  have hdd : ¬("d" ++ ds = ".." ∨ "d" ++ ds = "cd ..") := by
    intro hcontra
    rcases hcontra with h | h <;>
      (have hdq := congrArg String.data h
       rw [hd_data] at hdq
       injection hdq with h1 _
       exact absurd h1 (by decide))
  have hdrop : pyDrop ("d" ++ ds) 1 = ds := by
    apply eq_of_data_eq
    show ("d" ++ ds).data.drop 1 = ds.data
    rw [hd_data]
    rfl
  have hstrip : pyStripWs ds = ds := by
    apply eq_of_data_eq
    show ((ds.data.dropWhile pyIsSpace).reverse.dropWhile pyIsSpace).reverse = ds.data
    rw [dropWhile_id_of_none ds.data (fun x hx => digit_not_space (hdig x hx)),
        dropWhile_id_of_none ds.data.reverse
          (fun x hx => digit_not_space (hdig x (List.mem_reverse.mp hx))),
        List.reverse_reverse]
  have hisdig : pyIsdigit ds = true := by
    unfold pyIsdigit
    rw [Bool.and_eq_true]
    constructor
    · cases hcd : ds.data with
      | nil => exact absurd hcd (data_ne_of_ne_empty hne)
      | cons a t => rfl
    · exact List.all_eq_true.mpr hdig
  have hstart : pyStartswith (pyLower ("d" ++ ds)) "d" = true := by
    show ("d").data.isPrefixOf (pyLower ("d" ++ ds)).data = true
    rw [hlow]
    simp [List.isPrefixOf]
  have hforce : (pyStartswith (pyLower ("d" ++ ds)) "d" &&
      pyIsdigit (pyStripWs (pyDrop ("d" ++ ds) 1))) = true := by
    rw [hdrop, hstrip, hstart, hisdig]
    rfl
  have hstep : sessionStep save_dir current items ("d" ++ ds) =
      (if 1 ≤ digitsVal ds.data ∧ digitsVal ds.data ≤ items.length then
         (if (items.getD (digitsVal ds.data - 1) ("", false)).2 = true then
            (current, SEffect.dlFolder
              (if current ≠ "" then
                 pyStripChar (current ++ "/" ++
                   (items.getD (digitsVal ds.data - 1) ("", false)).1) '/'
               else (items.getD (digitsVal ds.data - 1) ("", false)).1))
          else (current, SEffect.dlFile
            (if current ≠ "" then
               pyStripChar (current ++ "/" ++
                 (items.getD (digitsVal ds.data - 1) ("", false)).1) '/'
             else (items.getD (digitsVal ds.data - 1) ("", false)).1)
            (pathJoin save_dir (items.getD (digitsVal ds.data - 1) ("", false)).1)))
       else (current, SEffect.invalidNumber)) := by
    unfold sessionStep
    rw [if_neg h0, if_neg hq, if_neg hdd, hforce, hdrop, hstrip]
    simp only [if_true, eq_self_iff_true, ite_true, hisdig, Bool.not_true, Bool.and_false,
      Bool.false_eq_true, ite_false, if_false]
  refine ⟨?_, ?_, ?_⟩
  · rw [hstep]
    by_cases hr : 1 ≤ digitsVal ds.data ∧ digitsVal ds.data ≤ items.length
    · rw [if_pos hr]
      cases hb : (items.getD (digitsVal ds.data - 1) ("", false)).2 <;> simp [hb]
    · rw [if_neg hr]
  · intro hnr
    rw [hstep, if_neg hnr]
  · intro hr
    constructor
    · intro hb
      rw [hstep, if_pos hr, if_pos hb]
      exact ⟨_, rfl⟩
    · intro hb
      rw [hstep, if_pos hr, if_neg (by rw [hb]; simp)]
      exact ⟨_, rfl⟩

/-- Witness for `session_forced_download`: input `"d1"` on a single directory
entry at the root triggers a folder download and leaves the path unchanged. -/
theorem session_forced_download_witness :
    (sessionStep "sv" "" [("D", true)] ("d" ++ "1")).1 = "" ∧
    ∃ p, (sessionStep "sv" "" [("D", true)] ("d" ++ "1")).2 = SEffect.dlFolder p := by
  have h := session_forced_download "sv" "" [("D", true)] "1" (by decide) (by decide)
  exact ⟨h.1, (h.2.2 (by decide)).1 (by decide)⟩

/-! ### Helper lemmas for the URL model -/

theorem takeWhile_all {α : Type} {p : α → Bool} :
    ∀ l : List α, (∀ x ∈ l, p x = true) → l.takeWhile p = l
  | [], _ => rfl
  | a :: t, h => by
      rw [List.takeWhile_cons_of_pos (h a (by simp)),
          takeWhile_all t (fun x hx => h x (by simp [hx]))]

theorem dropWhile_all_nil {α : Type} {p : α → Bool} :
    ∀ l : List α, (∀ x ∈ l, p x = true) → l.dropWhile p = []
  | [], _ => rfl
  | a :: t, h => by
      rw [List.dropWhile_cons_of_pos (h a (by simp)),
          dropWhile_all_nil t (fun x hx => h x (by simp [hx]))]

theorem takeWhile_append_stop {α : Type} {p : α → Bool} {y : α} (hy : p y = false) :
    ∀ (l m : List α), (∀ x ∈ l, p x = true) → (l ++ y :: m).takeWhile p = l
  | [], m, _ => by simp [List.takeWhile_cons_of_neg, hy]
  | a :: t, m, h => by
      rw [List.cons_append, List.takeWhile_cons_of_pos (h a (by simp)),
          takeWhile_append_stop hy t m (fun x hx => h x (by simp [hx]))]

theorem dropWhile_append_stop {α : Type} {p : α → Bool} {y : α} (hy : p y = false) :
    ∀ (l m : List α), (∀ x ∈ l, p x = true) → (l ++ y :: m).dropWhile p = y :: m
  | [], m, _ => by simp [List.dropWhile_cons_of_neg, hy]
  | a :: t, m, h => by
      rw [List.cons_append, List.dropWhile_cons_of_pos (h a (by simp)),
          dropWhile_append_stop hy t m (fun x hx => h x (by simp [hx]))]

theorem splitFirst_absent {s : String} {c : Char} (h : ∀ x ∈ s.data, x ≠ c) :
    splitFirst s c = (s, "") := by
  unfold splitFirst
  rw [takeWhile_all s.data (fun x hx => by simpa using h x hx),
      dropWhile_all_nil s.data (fun x hx => by simpa using h x hx)]
  rfl

theorem pyStartswith_slash (s : String) :
    pyStartswith s "/" = true ↔ s.data.head? = some '/' := by
  have hdef : pyStartswith s "/" = List.isPrefixOf ['/'] s.data := rfl
  rw [hdef, List.isPrefixOf_iff_prefix]
  cases h : s.data with
  | nil => simp [List.prefix_nil]
  | cons b bs => rw [List.cons_prefix_cons]; simp [List.nil_prefix, eq_comm]

theorem splitChAux_ne_nil (c : Char) : ∀ l : List Char, splitChAux c l ≠ []
  | [] => by simp [splitChAux]
  | a :: rest => by
      simp only [splitChAux]
      by_cases h : a = c
      · simp [h]
      · simp only [if_neg h]
        cases hs : splitChAux c rest with
        | nil => simp
        | cons g gs => simp

theorem splitChAux_concat_sep (c : Char) :
    ∀ l : List Char, splitChAux c (l ++ [c]) = splitChAux c l ++ [[]]
  | [] => by simp [splitChAux]
  | a :: t => by
      by_cases h : a = c
      · show splitChAux c (a :: (t ++ [c])) = splitChAux c (a :: t) ++ [[]]
        simp only [splitChAux, if_pos h, splitChAux_concat_sep c t, List.cons_append]
      · show splitChAux c (a :: (t ++ [c])) = splitChAux c (a :: t) ++ [[]]
        simp only [splitChAux, if_neg h, splitChAux_concat_sep c t]
        cases hs : splitChAux c t with
        | nil => exact absurd hs (splitChAux_ne_nil c t)
        | cons g gs => simp

theorem joinCh_splitChAux (c : Char) : ∀ l : List Char, joinCh c (splitChAux c l) = l
  | [] => rfl
  | a :: rest => by
      have ih := joinCh_splitChAux c rest
      by_cases h : a = c
      · simp only [splitChAux, if_pos h]
        cases hs : splitChAux c rest with
        | nil => exact absurd hs (splitChAux_ne_nil c rest)
        | cons g gs =>
            rw [joinCh_cons c [] (g :: gs) (by simp), List.nil_append, ← hs, ih, h]
      · simp only [splitChAux, if_neg h]
        cases hs : splitChAux c rest with
        | nil => exact absurd hs (splitChAux_ne_nil c rest)
        | cons g gs =>
            cases gs with
            | nil =>
                show a :: g = a :: rest
                have : joinCh c (g :: ([] : List (List Char))) = g := rfl
                rw [← this, ← hs, ih]
            | cons g2 gr =>
                rw [joinCh_cons c (a :: g) (g2 :: gr) (by simp), List.cons_append,
                    ← joinCh_cons c g (g2 :: gr) (by simp), ← hs, ih]

theorem joinSlash_pySplit (p : String) : joinSlash (pySplitChar p '/') = p := by
  apply eq_of_data_eq
  show joinCh '/' (((splitChAux '/' p.data).map (fun l => (⟨l⟩ : String))).map String.data) =
    p.data
  rw [List.map_map]
  have h1 : (splitChAux '/' p.data).map (String.data ∘ fun l => (⟨l⟩ : String)) =
      (splitChAux '/' p.data).map id :=
    List.map_congr_left (fun l _ => rfl)
  rw [h1, List.map_id, joinCh_splitChAux]

theorem splitChAux_mem_chars (c : Char) :
    ∀ (l : List Char) (g : List Char), g ∈ splitChAux c l → ∀ x ∈ g, x ∈ l
  | [], g, hg, x, hx => by
      simp [splitChAux] at hg
      subst hg
      simp at hx
  | a :: rest, g, hg, x, hx => by
      by_cases h : a = c
      · rw [show splitChAux c (a :: rest) = [] :: splitChAux c rest by
            simp [splitChAux, if_pos h]] at hg
        rcases List.mem_cons.mp hg with h1 | h1
        · subst h1; simp at hx
        · exact List.mem_cons_of_mem a (splitChAux_mem_chars c rest g h1 x hx)
      · rw [show splitChAux c (a :: rest) =
            (match splitChAux c rest with
             | [] => [[a]]
             | g :: gs => (a :: g) :: gs) by simp [splitChAux, if_neg h]] at hg
        cases hs : splitChAux c rest with
        | nil => exact absurd hs (splitChAux_ne_nil c rest)
        | cons g0 gs =>
            rw [hs] at hg
            rcases List.mem_cons.mp hg with h1 | h1
            · subst h1
              rcases List.mem_cons.mp hx with h2 | h2
              · simp [h2]
              · exact List.mem_cons_of_mem a
                  (splitChAux_mem_chars c rest g0 (by rw [hs]; simp) x h2)
            · exact List.mem_cons_of_mem a
                (splitChAux_mem_chars c rest g (by rw [hs]; simp [h1]) x hx)

theorem splitChAux_no_sep_elems (c : Char) :
    ∀ (l : List Char) (g : List Char), g ∈ splitChAux c l → ∀ x ∈ g, x ≠ c
  | [], g, hg, x, hx => by
      simp [splitChAux] at hg
      subst hg
      simp at hx
  | a :: rest, g, hg, x, hx => by
      by_cases h : a = c
      · rw [show splitChAux c (a :: rest) = [] :: splitChAux c rest by
            simp [splitChAux, if_pos h]] at hg
        rcases List.mem_cons.mp hg with h1 | h1
        · subst h1; simp at hx
        · exact splitChAux_no_sep_elems c rest g h1 x hx
      · rw [show splitChAux c (a :: rest) =
            (match splitChAux c rest with
             | [] => [[a]]
             | g :: gs => (a :: g) :: gs) by simp [splitChAux, if_neg h]] at hg
        cases hs : splitChAux c rest with
        | nil => exact absurd hs (splitChAux_ne_nil c rest)
        | cons g0 gs =>
            rw [hs] at hg
            rcases List.mem_cons.mp hg with h1 | h1
            · subst h1
              rcases List.mem_cons.mp hx with h2 | h2
              · subst h2; exact h
              · exact splitChAux_no_sep_elems c rest g0 (by rw [hs]; simp) x h2
            · exact splitChAux_no_sep_elems c rest g (by rw [hs]; simp [h1]) x hx

theorem lstrip_eq_self_of_head {s : String} {c : Char}
    (h : ∀ a, s.data.head? = some a → a ≠ c) : pyLstripChar s c = s := by
  apply eq_of_data_eq
  show s.data.dropWhile (· = c) = s.data
  cases hd : s.data with
  | nil => rfl
  | cons a t =>
      have ha := h a (by rw [hd]; rfl)
      rw [List.dropWhile_cons_of_neg (by simpa using ha)]

theorem joinCh_append_empty (c : Char) :
    ∀ gs : List (List Char), gs ≠ [] → joinCh c (gs ++ [[]]) = joinCh c gs ++ [c]
  | [], h => absurd rfl h
  | [g], _ => by simp [joinCh]
  | g :: g2 :: rest, _ => by
      rw [show (g :: g2 :: rest) ++ [[]] = g :: ((g2 :: rest) ++ [[]]) from rfl,
          joinCh_cons c g ((g2 :: rest) ++ [[]]) (by simp),
          joinCh_append_empty c (g2 :: rest) (by simp),
          joinCh_cons c g (g2 :: rest) (by simp)]
      simp

theorem joinSlash_append_empty (segs : List String) (h : segs ≠ []) :
    joinSlash (segs ++ [""]) = joinSlash segs ++ "/" := by
  apply eq_of_data_eq
  show joinCh '/' ((segs ++ [""]).map String.data) = (joinSlash segs ++ "/").data
  rw [List.map_append]
  show joinCh '/' (segs.map String.data ++ [[]]) = (joinSlash segs ++ "/").data
  rw [joinCh_append_empty '/' (segs.map String.data) (by simpa using h)]
  rw [data_append]
  rfl

theorem pySplit_joinSlash_slash (segs : List String) (hne : segs ≠ [])
    (hfree : ∀ s ∈ segs, ∀ x ∈ s.data, x ≠ '/') :
    pySplitChar (joinSlash segs ++ "/") '/' = segs ++ [""] := by
  unfold pySplitChar
  have h1 : (joinSlash segs ++ "/").data = (joinSlash segs).data ++ ['/'] := by
    rw [data_append]
  rw [h1]
  have h2 : (joinSlash segs).data = joinCh '/' (segs.map String.data) := rfl
  rw [h2, splitChAux_concat_sep,
      splitCh_joinCh '/' (segs.map String.data) (by simpa using hne)
        (fun g hg => by
          obtain ⟨s, hs, rfl⟩ := List.mem_map.mp hg
          exact hfree s hs),
      List.map_append, List.map_map]
  rw [show List.map ((fun l => (⟨l⟩ : String)) ∘ String.data) segs = segs from
      (List.map_congr_left (fun s _ => rfl)).trans (List.map_id segs)]
  rfl

theorem filterInnerAux_all_ne :
    ∀ l : List String, (∀ s ∈ l, s ≠ "") → filterInnerAux l = l
  | [], _ => rfl
  | [a], _ => rfl
  | a :: b :: t, h => by
      show (if a = "" then filterInnerAux (b :: t) else a :: filterInnerAux (b :: t)) =
        a :: b :: t
      rw [if_neg (h a (by simp)), filterInnerAux_all_ne (b :: t)
        (fun s hs => h s (List.mem_cons_of_mem a hs))]

theorem filterInnerAux_append_empty :
    ∀ l : List String, (∀ s ∈ l, s ≠ "") → filterInnerAux (l ++ [""]) = l ++ [""]
  | [], _ => rfl
  | a :: t, h => by
      show filterInnerAux (a :: (t ++ [""])) = a :: (t ++ [""])
      cases ht : t ++ [""] with
      | nil => exact absurd ht (by simp)
      | cons b u =>
          show (if a = "" then filterInnerAux (b :: u) else a :: filterInnerAux (b :: u)) =
            a :: b :: u
          rw [if_neg (h a (by simp)), ← ht, filterInnerAux_append_empty t
            (fun s hs => h s (List.mem_cons_of_mem a hs)), ht]

theorem resolveSegs_no_dots :
    ∀ (l acc : List String), (∀ s ∈ l, s ≠ "." ∧ s ≠ "..") → resolveSegs acc l = acc ++ l
  | [], acc, _ => by simp [resolveSegs]
  | s :: t, acc, h => by
      have hs := h s (by simp)
      show (if s = ".." then resolveSegs acc.dropLast t
            else if s = "." then resolveSegs acc t
            else resolveSegs (acc ++ [s]) t) = acc ++ s :: t
      rw [if_neg hs.2, if_neg hs.1,
          resolveSegs_no_dots t (acc ++ [s]) (fun x hx => h x (by simp [hx]))]
      simp

theorem getLast?_mem_of {α : Type} : ∀ {l : List α} {x : α}, l.getLast? = some x → x ∈ l
  | [], x, h => by simp at h
  | [a], x, h => by
      have : a = x := by simpa using h
      simp [this]
  | a :: b :: t, x, h => by
      rw [List.getLast?_cons_cons] at h
      exact List.mem_cons_of_mem a (getLast?_mem_of h)

theorem joinCh_head (c : Char) (g : List Char) (gs : List (List Char)) (hg : g ≠ []) :
    (joinCh c (g :: gs)).head? = g.head? := by
  cases gs with
  | nil => rfl
  | cons g2 r =>
      rw [joinCh_cons c g (g2 :: r) (by simp)]
      exact head?_append_left g _ hg

theorem joinCh_mem (c : Char) : ∀ (gs : List (List Char)) (x : Char), x ∈ joinCh c gs →
    x = c ∨ ∃ g ∈ gs, x ∈ g
  | [], x, hx => by simp [joinCh] at hx
  | [g], x, hx => Or.inr ⟨g, by simp, hx⟩
  | g :: g2 :: rest, x, hx => by
      rw [joinCh_cons c g (g2 :: rest) (by simp)] at hx
      rcases List.mem_append.mp hx with h | h
      · exact Or.inr ⟨g, by simp, h⟩
      · rcases List.mem_cons.mp h with h | h
        · exact Or.inl h
        · rcases joinCh_mem c (g2 :: rest) x h with h | ⟨g', hg', hxg⟩
          · exact Or.inl h
          · exact Or.inr ⟨g', List.mem_cons_of_mem _ hg', hxg⟩

theorem joinSlash_mem (segs : List String) (x : Char) (hx : x ∈ (joinSlash segs).data) :
    x = '/' ∨ ∃ s ∈ segs, x ∈ s.data := by
  rcases joinCh_mem '/' (segs.map String.data) x hx with h | ⟨g, hg, hxg⟩
  · exact Or.inl h
  · obtain ⟨s, hs, rfl⟩ := List.mem_map.mp hg
    exact Or.inr ⟨s, hs, hxg⟩

theorem wfNetloc_parts {n : String} (hn : wfNetloc n = true) :
    n ≠ "" ∧ ∀ x ∈ n.data, x ≠ '/' ∧ x ≠ '?' ∧ x ≠ '#' := by
  unfold wfNetloc at hn
  rw [Bool.and_eq_true] at hn
  obtain ⟨h1, h2⟩ := hn
  refine ⟨by simpa using h1, ?_⟩
  intro x hx
  have h3 := List.all_eq_true.mp h2 x hx
  rw [Bool.and_eq_true, Bool.and_eq_true] at h3
  exact ⟨by simpa using h3.1.1, by simpa using h3.1.2, by simpa using h3.2⟩

theorem urlsplit_base (sch scheme n : String)
    (hs : (sch = "http://" ∧ scheme = "http") ∨ (sch = "https://" ∧ scheme = "https"))
    (hn : wfNetloc n = true) :
    pyUrlsplit (sch ++ n ++ "/") = ⟨scheme, n, "/", "", ""⟩ := by
  obtain ⟨hn1, hn2⟩ := wfNetloc_parts hn
  have htake : (n ++ "/").data.takeWhile (· ≠ '/') = n.data := by
    rw [data_append]
    exact takeWhile_append_stop (by decide) n.data []
      (fun x hx => by simpa using (hn2 x hx).1)
  have hdropw : (n ++ "/").data.dropWhile (· ≠ '/') = ['/'] := by
    rw [data_append]
    exact dropWhile_append_stop (by decide) n.data []
      (fun x hx => by simpa using (hn2 x hx).1)
  rcases hs with ⟨rfl, rfl⟩ | ⟨rfl, rfl⟩
  · have hdataB : ("http://" ++ n ++ "/").data = "http://".data ++ (n.data ++ ['/']) := by
      rw [data_append, data_append, List.append_assoc]
    have hnoq : ∀ x ∈ ("http://" ++ n ++ "/").data, x ≠ '?' := by
      intro x hx
      rw [hdataB] at hx
      rcases List.mem_append.mp hx with h | h
      · intro he; subst he; revert h; decide
      · rcases List.mem_append.mp h with h | h
        · exact (hn2 x h).2.1
        · intro he; subst he; revert h; decide
    have hnoh : ∀ x ∈ ("http://" ++ n ++ "/").data, x ≠ '#' := by
      intro x hx
      rw [hdataB] at hx
      rcases List.mem_append.mp hx with h | h
      · intro he; subst he; revert h; decide
      · rcases List.mem_append.mp h with h | h
        · exact (hn2 x h).2.2
        · intro he; subst he; revert h; decide
    have hstart : pyStartswith ("http://" ++ n ++ "/") "http://" = true := by
      show ("http://").data.isPrefixOf ("http://" ++ n ++ "/").data = true
      rw [hdataB]
      exact isPrefixOf_append_self _ _
    have hdrop : pyDrop ("http://" ++ n ++ "/") 7 = n ++ "/" := by
      apply eq_of_data_eq
      show ("http://" ++ n ++ "/").data.drop 7 = (n ++ "/").data
      rw [hdataB, show ∀ t : List Char, ("http://".data ++ t).drop 7 = t from fun t => rfl,
          data_append]
    unfold pyUrlsplit
    simp only [splitFirst_absent hnoh, splitFirst_absent hnoq, hstart, eq_self_iff_true,
      if_true, ite_true, pyDrop, hdrop]
    show (⟨"http", ⟨(n ++ "/").data.takeWhile (· ≠ '/')⟩,
        ⟨(n ++ "/").data.dropWhile (· ≠ '/')⟩, "", ""⟩ : UrlParts) = ⟨"http", n, "/", "", ""⟩
    rw [htake, hdropw]
  · have hdataB : ("https://" ++ n ++ "/").data = "https://".data ++ (n.data ++ ['/']) := by
      rw [data_append, data_append, List.append_assoc]
    have hnoq : ∀ x ∈ ("https://" ++ n ++ "/").data, x ≠ '?' := by
      intro x hx
      rw [hdataB] at hx
      rcases List.mem_append.mp hx with h | h
      · intro he; subst he; revert h; decide
      · rcases List.mem_append.mp h with h | h
        · exact (hn2 x h).2.1
        · intro he; subst he; revert h; decide
    have hnoh : ∀ x ∈ ("https://" ++ n ++ "/").data, x ≠ '#' := by
      intro x hx
      rw [hdataB] at hx
      rcases List.mem_append.mp hx with h | h
      · intro he; subst he; revert h; decide
      · rcases List.mem_append.mp h with h | h
        · exact (hn2 x h).2.2
        · intro he; subst he; revert h; decide
    have hstart1 : pyStartswith ("https://" ++ n ++ "/") "http://" = false := rfl
    have hstart2 : pyStartswith ("https://" ++ n ++ "/") "https://" = true := by
      show ("https://").data.isPrefixOf ("https://" ++ n ++ "/").data = true
      rw [hdataB]
      exact isPrefixOf_append_self _ _
    have hdrop : pyDrop ("https://" ++ n ++ "/") 8 = n ++ "/" := by
      apply eq_of_data_eq
      show ("https://" ++ n ++ "/").data.drop 8 = (n ++ "/").data
      rw [hdataB, show ∀ t : List Char, ("https://".data ++ t).drop 8 = t from fun t => rfl,
          data_append]
    unfold pyUrlsplit
    simp only [splitFirst_absent hnoh, splitFirst_absent hnoq, hstart1, hstart2,
      Bool.false_eq_true, if_false, ite_false, eq_self_iff_true, if_true, ite_true,
      pyDrop, hdrop]
    show (⟨"https", ⟨(n ++ "/").data.takeWhile (· ≠ '/')⟩,
        ⟨(n ++ "/").data.dropWhile (· ≠ '/')⟩, "", ""⟩ : UrlParts) = ⟨"https", n, "/", "", ""⟩
    rw [htake, hdropw]

theorem urlsplit_rel (rel : String)
    (hchar : ∀ x ∈ rel.data, x ≠ ':' ∧ x ≠ '?' ∧ x ≠ '#') :
    pyUrlsplit rel = ⟨"", "", rel, "", ""⟩ := by
  have h1 := splitFirst_absent (s := rel) (c := '#') (fun x hx => (hchar x hx).2.2)
  have h2 := splitFirst_absent (s := rel) (c := '?') (fun x hx => (hchar x hx).2.1)
  have hb1 : pyStartswith rel "http://" = false := by
    rw [Bool.eq_false_iff]
    intro hp
    have hp' : ("http://").data <+: rel.data := List.isPrefixOf_iff_prefix.mp hp
    obtain ⟨t, ht⟩ := hp'
    have hc : ':' ∈ rel.data := by
      rw [← ht]
      exact List.mem_append_left t (by decide)
    exact (hchar ':' hc).1 rfl
  have hb2 : pyStartswith rel "https://" = false := by
    rw [Bool.eq_false_iff]
    intro hp
    have hp' : ("https://").data <+: rel.data := List.isPrefixOf_iff_prefix.mp hp
    obtain ⟨t, ht⟩ := hp'
    have hc : ':' ∈ rel.data := by
      rw [← ht]
      exact List.mem_append_left t (by decide)
    exact (hchar ':' hc).1 rfl
  unfold pyUrlsplit
  simp only [h1, h2, hb1, hb2, Bool.false_eq_true, if_false, ite_false]

theorem urlunsplit_abs (sch scheme n path : String)
    (hs : (sch = "http://" ∧ scheme = "http") ∨ (sch = "https://" ∧ scheme = "https"))
    (hn : n ≠ "") (hpath : pyStartswith path "/" = true) :
    pyUrlunsplit ⟨scheme, n, path, "", ""⟩ = sch ++ n ++ path := by
  rcases hs with ⟨rfl, rfl⟩ | ⟨rfl, rfl⟩ <;>
    (unfold pyUrlunsplit
     simp only [ne_eq, not_true, not_false_iff, ite_true, ite_false]
     rw [if_pos (Or.inl hn),
         if_neg (show ¬(¬path = "" ∧ pyStartswith path "/" = false) from fun hand => by
           rw [hpath] at hand
           exact absurd hand.2 (by simp))]
     split
     · rfl
     · next hcon => exact absurd (not_not.mp hcon) (by decide))

theorem urljoin_clean (sch scheme n rel : String) (segs : List String)
    (hs : (sch = "http://" ∧ scheme = "http") ∨ (sch = "https://" ∧ scheme = "https"))
    (hn : wfNetloc n = true)
    (hsegs : segs ≠ [])
    (hseg : ∀ s ∈ segs, s ≠ "" ∧ s ≠ "." ∧ s ≠ ".." ∧
      ∀ x ∈ s.data, x ≠ '/' ∧ x ≠ ':' ∧ x ≠ '?' ∧ x ≠ '#')
    (hrel : rel = joinSlash segs ∨ rel = joinSlash segs ++ "/") :
    pyUrljoin (sch ++ n ++ "/") rel = sch ++ n ++ "/" ++ rel := by
  obtain ⟨hn1, hn2⟩ := wfNetloc_parts hn
  obtain ⟨s0, rest0, rfl⟩ := List.exists_cons_of_ne_nil hsegs
  have hs0 := hseg s0 (by simp)
  have hsfree : ∀ s ∈ s0 :: rest0, ∀ x ∈ s.data, x ≠ '/' :=
    fun s hsm x hx => ((hseg s hsm).2.2.2 x hx).1
  have hjchar : ∀ x ∈ (joinSlash (s0 :: rest0)).data, x ≠ ':' ∧ x ≠ '?' ∧ x ≠ '#' := by
    intro x hx
    rcases joinSlash_mem (s0 :: rest0) x hx with rfl | ⟨s, hsm, hxs⟩
    · exact ⟨by decide, by decide, by decide⟩
    · have hc := (hseg s hsm).2.2.2 x hxs
      exact ⟨hc.2.1, hc.2.2.1, hc.2.2.2⟩
  have hjoin_ne : joinSlash (s0 :: rest0) ≠ "" := joinSlash_ne_empty s0 rest0 hs0.1
  have hrelchar : ∀ x ∈ rel.data, x ≠ ':' ∧ x ≠ '?' ∧ x ≠ '#' := by
    rcases hrel with rfl | rfl
    · exact hjchar
    · intro x hx
      rw [data_append] at hx
      rcases List.mem_append.mp hx with h | h
      · exact hjchar x h
      · have hx' : x = '/' := by simpa using h
        subst hx'
        exact ⟨by decide, by decide, by decide⟩
  have hrelne : rel ≠ "" := by
    rcases hrel with rfl | rfl
    · exact hjoin_ne
    · apply ne_empty_of_data
      rw [data_append]
      intro hc
      exact absurd (List.append_eq_nil.mp hc).1 (data_ne_of_ne_empty hjoin_ne)
  have hB0 : (sch ++ n ++ "/") ≠ "" := by
    apply ne_empty_of_data
    rw [data_append]
    intro hc
    exact absurd (List.append_eq_nil.mp hc).2 (by decide)
  obtain ⟨a0, t0, ha0⟩ := List.exists_cons_of_ne_nil (data_ne_of_ne_empty hs0.1)
  have ha0ne : a0 ≠ '/' := (hs0.2.2.2 a0 (by rw [ha0]; simp)).1
  have hjhead : (joinSlash (s0 :: rest0)).data.head? = some a0 := by
    show (joinCh '/' (s0.data :: rest0.map String.data)).head? = some a0
    rw [joinCh_head '/' s0.data _ (data_ne_of_ne_empty hs0.1), ha0]
    rfl
  have hrel_head : pyStartswith rel "/" = false := by
    rw [Bool.eq_false_iff]
    intro htrue
    have hh := (pyStartswith_slash rel).mp htrue
    have hh2 : rel.data.head? = some a0 := by
      rcases hrel with rfl | rfl
      · exact hjhead
      · rw [data_append,
            head?_append_left _ _ (data_ne_of_ne_empty hjoin_ne), hjhead]
    rw [hh2] at hh
    exact ha0ne (by simpa using hh)
  have husesR : usesRelative scheme = true := by
    rcases hs with ⟨_, rfl⟩ | ⟨_, rfl⟩ <;> rfl
  have hbp : pySplitChar "/" '/' = ["", ""] := rfl
  have hgl : (["", ""] : List String).getLastD "" = "" := rfl
  have hstartJ : pyStartswith ("/" ++ joinSlash (s0 :: rest0)) "/" = true := by
    apply (pyStartswith_slash _).mpr
    rw [data_append]
    rfl
  have hstartJ2 : pyStartswith ("/" ++ (joinSlash (s0 :: rest0) ++ "/")) "/" = true := by
    apply (pyStartswith_slash _).mpr
    rw [data_append]
    rfl
  unfold pyUrljoin
  rw [if_neg hB0, if_neg hrelne, urlsplit_base sch scheme n hs hn, urlsplit_rel rel hrelchar]
  simp only [ne_eq, not_true, not_false_iff, ite_true, ite_false, husesR, Bool.true_eq_false,
    Bool.false_eq_true, or_self, hrelne, hrel_head, hbp, hgl, List.cons_append,
    List.nil_append]
  rcases hrel with rfl | rfl
  · have hsplitX : pySplitChar (joinSlash (s0 :: rest0)) '/' = s0 :: rest0 :=
      pySplit_joinSlash _ (by simp) hsfree
    have hfia : filterInnerAux ("" :: s0 :: rest0) = s0 :: rest0 := by
      show (if ("" : String) = "" then filterInnerAux (s0 :: rest0)
            else "" :: filterInnerAux (s0 :: rest0)) = s0 :: rest0
      rw [if_pos rfl, filterInnerAux_all_ne (s0 :: rest0) (fun s hsm => (hseg s hsm).1)]
    have hdots : ("" :: s0 :: rest0).getLastD "" ≠ "." ∧
        ("" :: s0 :: rest0).getLastD "" ≠ ".." := by
      obtain ⟨w, hw⟩ : ∃ w, (s0 :: rest0).getLast? = some w :=
        ⟨_, List.getLast?_eq_getLast_of_ne_nil (by simp)⟩
      have hwm := getLast?_mem_of hw
      have hwd := hseg w hwm
      rw [List.getLastD_eq_getLast?, List.getLast?_cons_cons, hw]
      exact ⟨by simpa using hwd.2.1, by simpa using hwd.2.2.1⟩
    have hdotsF : (("" :: s0 :: rest0).getLastD "" = "." ∨
        ("" :: s0 :: rest0).getLastD "" = "..") = False :=
      eq_false (fun hc => hc.elim hdots.1 hdots.2)
    have hres : resolveSegs [] ("" :: s0 :: rest0) = "" :: s0 :: rest0 := by
      rw [resolveSegs_no_dots ("" :: s0 :: rest0) []]
      · rfl
      · intro s hsm
        rcases List.mem_cons.mp hsm with rfl | hsm'
        · exact ⟨by decide, by decide⟩
        · exact ⟨(hseg s hsm').2.1, (hseg s hsm').2.2.1⟩
    have hj : joinSlash ("" :: s0 :: rest0) = "/" ++ joinSlash (s0 :: rest0) := by
      apply eq_of_data_eq
      show joinCh '/' ([] :: (s0 :: rest0).map String.data) =
        ("/" ++ joinSlash (s0 :: rest0)).data
      rw [joinCh_cons '/' [] _ (by simp), List.nil_append, data_append]
      rfl
    have hjne2 : joinSlash ("" :: s0 :: rest0) ≠ "" := by
      rw [hj]
      apply ne_empty_of_data
      rw [data_append]
      intro hc
      exact absurd (List.append_eq_nil.mp hc).1 (by decide)
    have hslashjne : ("/" ++ joinSlash (s0 :: rest0)) ≠ "" := by
      apply ne_empty_of_data
      rw [data_append]
      intro hc
      exact absurd (List.append_eq_nil.mp hc).1 (by decide)
    simp only [hsplitX, hfia, hres, hdotsF, ite_false, hjne2, hj, eq_false hslashjne]
    rw [urlunsplit_abs sch scheme n _ hs hn1 hstartJ]
    apply eq_of_data_eq
    simp [data_append, List.append_assoc]
  · have hsplitX : pySplitChar (joinSlash (s0 :: rest0) ++ "/") '/' = (s0 :: rest0) ++ [""] :=
      pySplit_joinSlash_slash _ (by simp) hsfree
    have hfia : filterInnerAux ("" :: s0 :: (rest0 ++ [""])) = s0 :: (rest0 ++ [""]) := by
      show (if ("" : String) = "" then filterInnerAux (s0 :: (rest0 ++ [""]))
            else "" :: filterInnerAux (s0 :: (rest0 ++ [""]))) = s0 :: (rest0 ++ [""])
      rw [if_pos rfl]
      exact filterInnerAux_append_empty (s0 :: rest0) (fun s hsm => (hseg s hsm).1)
    have hdots : ("" :: s0 :: (rest0 ++ [""])).getLastD "" ≠ "." ∧
        ("" :: s0 :: (rest0 ++ [""])).getLastD "" ≠ ".." := by
      have hw : (s0 :: (rest0 ++ [""])).getLast? = some "" := by
        show ((s0 :: rest0) ++ [""]).getLast? = some ""
        exact List.getLast?_concat _
      rw [List.getLastD_eq_getLast?, List.getLast?_cons_cons, hw]
      exact ⟨by decide, by decide⟩
    have hdotsF : (("" :: s0 :: (rest0 ++ [""])).getLastD "" = "." ∨
        ("" :: s0 :: (rest0 ++ [""])).getLastD "" = "..") = False :=
      eq_false (fun hc => hc.elim hdots.1 hdots.2)
    have hres : resolveSegs [] ("" :: s0 :: (rest0 ++ [""])) = "" :: s0 :: (rest0 ++ [""]) := by
      rw [resolveSegs_no_dots ("" :: s0 :: (rest0 ++ [""])) []]
      · rfl
      · intro s hsm
        rcases List.mem_cons.mp hsm with rfl | hsm'
        · exact ⟨by decide, by decide⟩
        · rcases List.mem_cons.mp hsm' with rfl | hsm''
          · exact ⟨(hseg s (by simp)).2.1, (hseg s (by simp)).2.2.1⟩
          · rcases List.mem_append.mp hsm'' with hmem | hmem
            · exact ⟨(hseg s (by simp [hmem])).2.1, (hseg s (by simp [hmem])).2.2.1⟩
            · have : s = "" := by simpa using hmem
              subst this
              exact ⟨by decide, by decide⟩
    have hj : joinSlash ("" :: s0 :: (rest0 ++ [""])) =
        "/" ++ (joinSlash (s0 :: rest0) ++ "/") := by
      apply eq_of_data_eq
      show joinCh '/' ([] :: ((s0 :: rest0) ++ [""]).map String.data) =
        ("/" ++ (joinSlash (s0 :: rest0) ++ "/")).data
      rw [joinCh_cons '/' [] _ (by simp), List.nil_append, List.map_append]
      show '/' :: joinCh '/' ((s0 :: rest0).map String.data ++ [[]]) = _
      rw [joinCh_append_empty '/' _ (by simp), data_append, data_append]
      rfl
    have hjne2 : joinSlash ("" :: s0 :: (rest0 ++ [""])) ≠ "" := by
      rw [hj]
      apply ne_empty_of_data
      rw [data_append]
      intro hc
      exact absurd (List.append_eq_nil.mp hc).1 (by decide)
    have hslashjne : ("/" ++ (joinSlash (s0 :: rest0) ++ "/")) ≠ "" := by
      apply ne_empty_of_data
      rw [data_append]
      intro hc
      exact absurd (List.append_eq_nil.mp hc).1 (by decide)
    simp only [hsplitX, List.cons_append, List.nil_append, hfia, hres, hdotsF,
      ite_false, hjne2, hj, eq_false hslashjne]
    rw [urlunsplit_abs sch scheme n _ hs hn1 hstartJ2]
    apply eq_of_data_eq
    simp [data_append, List.append_assoc]

theorem wfBase_decomp {b : String} (hb : wfBase b = true) :
    ∃ sch scheme nl,
      ((sch = "http://" ∧ scheme = "http") ∨ (sch = "https://" ∧ scheme = "https")) ∧
      wfNetloc nl = true ∧ b = sch ++ nl := by
  unfold wfBase at hb
  rw [Bool.or_eq_true] at hb
  rcases hb with hb | hb <;> rw [Bool.and_eq_true] at hb
  · obtain ⟨h1, h2⟩ := hb
    refine ⟨"http://", "http", pyDrop b 7, Or.inl ⟨rfl, rfl⟩, h2, ?_⟩
    have hp : ("http://").data <+: b.data := List.isPrefixOf_iff_prefix.mp h1
    obtain ⟨t, ht⟩ := hp
    apply eq_of_data_eq
    rw [data_append]
    show b.data = "http://".data ++ b.data.drop 7
    rw [← ht, show ∀ u : List Char, ("http://".data ++ u).drop 7 = u from fun u => rfl]
  · obtain ⟨h1, h2⟩ := hb
    refine ⟨"https://", "https", pyDrop b 8, Or.inr ⟨rfl, rfl⟩, h2, ?_⟩
    have hp : ("https://").data <+: b.data := List.isPrefixOf_iff_prefix.mp h1
    obtain ⟨t, ht⟩ := hp
    apply eq_of_data_eq
    rw [data_append]
    show b.data = "https://".data ++ b.data.drop 8
    rw [← ht, show ∀ u : List Char, ("https://".data ++ u).drop 8 = u from fun u => rfl]

theorem wfPath_decomp {p : String} (hp : wfPath p = true) :
    p ≠ "" ∧ ∃ segs, segs ≠ [] ∧
      (∀ s ∈ segs, s ≠ "" ∧ s ≠ "." ∧ s ≠ ".." ∧
        ∀ x ∈ s.data, x ≠ '/' ∧ x ≠ ':' ∧ x ≠ '?' ∧ x ≠ '#') ∧
      p = joinSlash segs := by
  unfold wfPath at hp
  rw [Bool.and_eq_true, Bool.and_eq_true] at hp
  obtain ⟨⟨h1, h2⟩, h3⟩ := hp
  have hpne : p ≠ "" := by simpa using h1
  refine ⟨hpne, pySplitChar p '/', ?_, ?_, (joinSlash_pySplit p).symm⟩
  · intro hc
    exact splitChAux_ne_nil '/' p.data (List.map_eq_nil_iff.mp hc)
  · intro s hs
    have hsall := List.all_eq_true.mp h3 s hs
    rw [Bool.and_eq_true, Bool.and_eq_true] at hsall
    obtain ⟨⟨hr1, hr2⟩, hr3⟩ := hsall
    obtain ⟨g, hg, rfl⟩ := List.mem_map.mp hs
    refine ⟨by simpa using hr1, by simpa using hr2, by simpa using hr3, ?_⟩
    intro x hx
    have hxg : x ∈ g := hx
    have hslash := splitChAux_no_sep_elems '/' p.data g hg x hxg
    have hxp : x ∈ p.data := splitChAux_mem_chars '/' p.data g hg x hxg
    have hchar := List.all_eq_true.mp h2 x hxp
    rw [Bool.and_eq_true, Bool.and_eq_true, Bool.and_eq_true] at hchar
    exact ⟨hslash, by simpa using hchar.1.1.1, by simpa using hchar.1.1.2,
      by simpa using hchar.1.2⟩

theorem wfPath_lstrip {p : String} (hp : wfPath p = true) : pyLstripChar p '/' = p := by
  obtain ⟨hpne, segs, hsegs, hseg, hpj⟩ := wfPath_decomp hp
  obtain ⟨s0, rest0, rfl⟩ := List.exists_cons_of_ne_nil hsegs
  apply lstrip_eq_self_of_head
  intro a ha
  rw [hpj] at ha
  have hh : (joinSlash (s0 :: rest0)).data.head? = s0.data.head? := by
    show (joinCh '/' (s0.data :: rest0.map String.data)).head? = s0.data.head?
    exact joinCh_head '/' s0.data _ (data_ne_of_ne_empty (hseg s0 (by simp)).1)
  rw [hh] at ha
  exact ((hseg s0 (by simp)).2.2.2 a (head?_mem ha)).1

theorem head_url_eq (b p : String) (hb : wfBase b = true) (hp : wfPath p = true) :
    head_url b p = b ++ "/" ++ p := by
  obtain ⟨sch, scheme, nl, hs, hnl, rfl⟩ := wfBase_decomp hb
  obtain ⟨hpne, segs, hsegs, hseg, hpj⟩ := wfPath_decomp hp
  show pyUrljoin (sch ++ nl ++ "/") (pyLstripChar p '/') = sch ++ nl ++ "/" ++ p
  rw [wfPath_lstrip hp]
  exact urljoin_clean sch scheme nl p segs hs hnl hsegs hseg (Or.inl hpj)

theorem listing_url_eq (b p : String) (hb : wfBase b = true) (hp : wfPath p = true) :
    listing_url b p = b ++ "/" ++ p ++ "/" ++ "?json" := by
  obtain ⟨sch, scheme, nl, hs, hnl, rfl⟩ := wfBase_decomp hb
  obtain ⟨hpne, segs, hsegs, hseg, hpj⟩ := wfPath_decomp hp
  have hju : pyUrljoin (sch ++ nl ++ "/") (p ++ "/") = sch ++ nl ++ "/" ++ (p ++ "/") :=
    urljoin_clean sch scheme nl (p ++ "/") segs hs hnl hsegs hseg (Or.inr (by rw [hpj]))
  have hend : pyEndswith (sch ++ nl ++ "/" ++ (p ++ "/")) "/" = true := by
    apply (pyEndswith_slash _).mpr
    rw [data_append, List.reverse_append,
        show (p ++ "/").data = p.data ++ ['/'] from by rw [data_append],
        List.reverse_append]
    rfl
  simp only [listing_url, eq_false hpne, ite_false, wfPath_lstrip hp, hju, hend,
    eq_self_iff_true, ite_true, if_true]
  apply eq_of_data_eq
  simp [data_append, List.append_assoc]

theorem noslash_sep_inj : ∀ (a b x y : List Char),
    (∀ u ∈ a, u ≠ '/') → (∀ u ∈ b, u ≠ '/') →
    a ++ '/' :: x = b ++ '/' :: y → a = b ∧ x = y
  | [], [], x, y, _, _, h => by
      simp only [List.nil_append, List.cons.injEq] at h
      exact ⟨rfl, h.2⟩
  | [], c :: bs, x, y, _, hb, h => by
      simp only [List.nil_append, List.cons_append, List.cons.injEq] at h
      exact absurd h.1.symm (hb c (by simp))
  | c :: as, [], x, y, ha, _, h => by
      simp only [List.nil_append, List.cons_append, List.cons.injEq] at h
      exact absurd h.1 (ha c (by simp))
  | c :: as, d :: bs, x, y, ha, hb, h => by
      simp only [List.cons_append, List.cons.injEq] at h
      obtain ⟨h1, h2⟩ := h
      obtain ⟨ha2, hx⟩ := noslash_sep_inj as bs x y (fun u hu => ha u (by simp [hu]))
        (fun u hu => hb u (by simp [hu])) h2
      exact ⟨by rw [h1, ha2], hx⟩

theorem base_path_inj (b₁ p₁ b₂ p₂ : String)
    (hb₁ : wfBase b₁ = true) (hb₂ : wfBase b₂ = true)
    (hd : b₁.data ++ '/' :: p₁.data = b₂.data ++ '/' :: p₂.data) :
    b₁ = b₂ ∧ p₁ = p₂ := by
  obtain ⟨sch₁, scheme₁, nl₁, hs₁, hnl₁, rfl⟩ := wfBase_decomp hb₁
  obtain ⟨sch₂, scheme₂, nl₂, hs₂, hnl₂, rfl⟩ := wfBase_decomp hb₂
  have hnl₁f := (wfNetloc_parts hnl₁).2
  have hnl₂f := (wfNetloc_parts hnl₂).2
  rw [data_append, data_append, List.append_assoc, List.append_assoc] at hd
  rcases hs₁ with ⟨rfl, _⟩ | ⟨rfl, _⟩ <;> rcases hs₂ with ⟨rfl, _⟩ | ⟨rfl, _⟩
  · have hd' := List.append_cancel_left hd
    obtain ⟨hnl, hpeq⟩ := noslash_sep_inj nl₁.data nl₂.data p₁.data p₂.data
      (fun u hu => (hnl₁f u hu).1) (fun u hu => (hnl₂f u hu).1) hd'
    exact ⟨by rw [eq_of_data_eq hnl], eq_of_data_eq hpeq⟩
  · rw [show ("http://").data = ['h', 't', 't', 'p', ':', '/', '/'] from rfl,
        show ("https://").data = ['h', 't', 't', 'p', 's', ':', '/', '/'] from rfl] at hd
    simp only [List.cons_append, List.cons.injEq] at hd
    exact absurd hd.2.2.2.2.1 (by decide)
  · rw [show ("http://").data = ['h', 't', 't', 'p', ':', '/', '/'] from rfl,
        show ("https://").data = ['h', 't', 't', 'p', 's', ':', '/', '/'] from rfl] at hd
    simp only [List.cons_append, List.cons.injEq] at hd
    exact absurd hd.2.2.2.2.1 (by decide)
  · have hd' := List.append_cancel_left hd
    obtain ⟨hnl, hpeq⟩ := noslash_sep_inj nl₁.data nl₂.data p₁.data p₂.data
      (fun u hu => (hnl₁f u hu).1) (fun u hu => (hnl₂f u hu).1) hd'
    exact ⟨by rw [eq_of_data_eq hnl], eq_of_data_eq hpeq⟩

/-! ### Claim C8 — URL construction -/

/-- Claim C8, counterexample: at the root (empty) remote path the listing URL
is `base ++ "/?json"` — `urljoin` resolves the `"./"` reference — not the
`base ++ "//?json"` that the claimed `base + "/" + path + "/" + marker`
formula yields, so the claimed equation fails for the empty path. -/
theorem listing_url_root :
    listing_url "http://h" "" = "http://h/?json" ∧
    "http://h/?json" ≠ "http://h" ++ "/" ++ "" ++ "/" ++ "?json" := by
  constructor
  · decide
  · decide

/-- Claim C8 (amended): for every well-formed base (scheme plus authority, no
path) and every nonempty well-formed relative path, the listing URL is
exactly `base + "/" + path + "/" + "?json"` and the file/HEAD URL is exactly
`base + "/" + path`; both constructions are injective on such inputs. At the
root (empty path) the listing URL is instead `base + "/?json"`. -/
theorem url_construction (b₁ p₁ b₂ p₂ : String)
    (hb₁ : wfBase b₁ = true) (hp₁ : wfPath p₁ = true)
    (hb₂ : wfBase b₂ = true) (hp₂ : wfPath p₂ = true) :
    listing_url b₁ p₁ = b₁ ++ "/" ++ p₁ ++ "/" ++ "?json" ∧
    head_url b₁ p₁ = b₁ ++ "/" ++ p₁ ∧
    (head_url b₁ p₁ = head_url b₂ p₂ → b₁ = b₂ ∧ p₁ = p₂) ∧
    (listing_url b₁ p₁ = listing_url b₂ p₂ → b₁ = b₂ ∧ p₁ = p₂) := by
  have key : ∀ A P Q : List Char,
      A ++ ['/'] ++ P ++ ['/'] ++ Q = (A ++ '/' :: P) ++ ('/' :: Q) := by
    intro A P Q
    simp [List.append_assoc]
  refine ⟨listing_url_eq b₁ p₁ hb₁ hp₁, head_url_eq b₁ p₁ hb₁ hp₁, ?_, ?_⟩
  · intro he
    rw [head_url_eq b₁ p₁ hb₁ hp₁, head_url_eq b₂ p₂ hb₂ hp₂] at he
    apply base_path_inj b₁ p₁ b₂ p₂ hb₁ hb₂
    have hd := congrArg String.data he
    simp only [data_append] at hd
    rw [List.append_assoc, List.append_assoc] at hd
    exact hd
  · intro he
    rw [listing_url_eq b₁ p₁ hb₁ hp₁, listing_url_eq b₂ p₂ hb₂ hp₂] at he
    have hd := congrArg String.data he
    simp only [data_append] at hd
    rw [key, key] at hd
    exact base_path_inj b₁ p₁ b₂ p₂ hb₁ hb₂ (List.append_cancel_right hd)

/-- Witness for `url_construction` at a concrete base and path. -/
theorem url_construction_witness :
    listing_url "http://h" "a/b" = "http://h" ++ "/" ++ "a/b" ++ "/" ++ "?json" ∧
    head_url "http://h" "a/b" = "http://h" ++ "/" ++ "a/b" := by
  have h := url_construction "http://h" "a/b" "http://h" "a/b"
    (by decide) (by decide) (by decide) (by decide)
  exact ⟨h.1, h.2.1⟩

end Dufs
